import Mathlib

set_option allowUnsafeReducibility true in
attribute [semireducible] Rat.add Rat.sub Rat.mul Rat.inv

/-!
Shallow embedding of the binning / predictive-power engine of the
simply-eda-app repository: the target binarizer and the IV/WoE report
builder of `src/iv_analysis.py`, and the Lift report builder of
`lift_analysis.py`.

Conventions of the embedding:
* a pandas numeric value is `ℚ`; a possibly-missing entry (NaN) is `Option ℚ`;
* a dataframe handed to the Lift builder is its list of numeric columns,
  `List (String × List (Option ℚ))`; `compute_iv` receives the two columns
  it reads (feature, target) as a list of row pairs;
* exceptions that propagate to the caller are `Except.error`/`Option.none`;
  `compute_iv` has a catch-all `except` and is therefore total;
* the float logarithm used for WoE is modelled by `Real.log`, and the
  `1e-10` smoothing constant by the exact rational `1/10^10`;
* float division by zero (NaN/inf, produced by the Lift builder on a
  degenerate baseline and for empty categories) is modelled by rational
  division, which yields `0`.  No theorem below inspects a value that is
  NaN/inf in the source.
-/

/-- Ascending sort: the order pandas/numpy use for quantile computation. -/
def sortQ (xs : List ℚ) : List ℚ := List.insertionSort (· ≤ ·) xs

/-- Linear-interpolation quantile of a value list, as `Series.quantile` /
`numpy.percentile` with the default interpolation ("linear"):
position `p * (n - 1)` in the sorted values, interpolating between the
two neighbouring order statistics.  `0` stands for the NaN returned on an
empty list (callers guard that case). -/
def quantileQ (xs : List ℚ) (p : ℚ) : ℚ :=
  let s := sortQ xs
  if s.isEmpty then 0
  else
    let n := s.length
    let pos : ℚ := p * ((n : ℚ) - 1)
    let i : ℕ := (Rat.floor pos).toNat
    let a := s.getD i 0
    let b := s.getD (min (i + 1) (n - 1)) 0
    a + (pos - (i : ℚ)) * (b - a)

/-- Removal of consecutive duplicates; on the (monotone) quantile edge
list this is `numpy.unique`, i.e. the `duplicates="drop"` handling of
`pd.qcut`. -/
def dedupC : List ℚ → List ℚ
  | [] => []
  | [a] => [a]
  | a :: b :: t => if a = b then dedupC (b :: t) else a :: dedupC (b :: t)

/-- pandas `rank(method="first")`: rank of the i-th entry is one plus the
number of strictly smaller entries plus the number of equal entries at
earlier positions — ties broken by original order, so ranks are distinct. -/
def rankFirst (xs : List ℚ) : List ℚ :=
  xs.enum.map (fun q =>
    ((xs.countP (fun y => decide (y < q.2))
      + (xs.take q.1).countP (fun y => decide (y = q.2)) + 1 : ℕ) : ℚ))

/-- 1-based interval index of a value for the given edges, as `pd.cut`
with right-closed intervals and the lowest edge included
(`include_lowest`); `none` is the NaN bin for values outside the edges. -/
def binIdxOpt (es : List ℚ) (v : ℚ) : Option ℕ :=
  if v < es.headD 0 ∨ es.getLastD 0 < v then none
  else some ((es.drop 1).countP (fun e => decide (e < v)) + 1)

/-- Bin edges of `pd.qcut(xs, k, duplicates="drop")`: quantiles at
`linspace(0, 1, k+1)`, duplicate edges dropped. -/
def qcutEdges (xs : List ℚ) (k : ℕ) : List ℚ :=
  dedupC ((List.range (k + 1)).map (fun (i : ℕ) => quantileQ xs ((i : ℚ) / (k : ℚ))))

/-- `pd.qcut(xs.rank(method="first"), q = k, duplicates = "drop")` as used
by both report builders: the per-row interval index together with the
number of intervals.  `none` models the `ValueError` of `pd.cut` when
fewer than two distinct edges remain (every caller catches it). -/
def qcutRank (xs : List ℚ) (k : ℕ) : Option (List (Option ℕ) × ℕ) :=
  let es := qcutEdges (rankFirst xs) k
  if es.length < 2 then none
  else some ((rankFirst xs).map (binIdxOpt es), es.length - 1)

/-- groupby on the interval index: the labels landing in each of the `m`
intervals, in interval order.  pandas group-by on the categorical bin
column emits every category, empty ones included, which is why all `m`
intervals appear. -/
def groupLabels {α : Type} (idxs : List (Option ℕ)) (ls : List α) (m : ℕ) : List (List α) :=
  (List.range m).map (fun j =>
    (idxs.zip ls).filterMap (fun q => if q.1 = some (j + 1) then some q.2 else none))

/-- The two `ValueError` classes `bin_target_for_iv` can raise. -/
inductive BinError where
  | invalidParameter
  | unknownMethod
deriving DecidableEq

deriving instance DecidableEq for Except

/-- `series >= thr` followed by `.astype(int)`: a NaN entry or a NaN
threshold compares as False, hence contributes label 0. -/
def geThr (thr : Option ℚ) (o : Option ℚ) : Bool :=
  match o, thr with
  | some v, some t => decide (t ≤ v)
  | _, _ => false

/-- `(s >= thr).astype(int)`. -/
def seriesGe (s : List (Option ℚ)) (thr : Option ℚ) : List ℚ :=
  s.map (fun o => if geThr thr o then 1 else 0)

/-- The non-missing entries of a series, in order. -/
def nonMissing (xs : List (Option ℚ)) : List ℚ := xs.filterMap id

/-- `Series.median()`: the 0.5 quantile of the non-missing values,
NaN (`none`) on an all-missing series. -/
def medianOpt (s : List (Option ℚ)) : Option ℚ :=
  if (nonMissing s).isEmpty then none else some (quantileQ (nonMissing s) (1 / 2))

/-- `Series.quantile(q)` for `q ∈ [0,1]` (outside that range pandas
raises before this is reached). -/
def quantileOptS (s : List (Option ℚ)) (q : ℚ) : Option ℚ :=
  if (nonMissing s).isEmpty then none else some (quantileQ (nonMissing s) q)

/-- `bin_target_for_iv` of `src/iv_analysis.py`.  pandas validates the
quantile argument against the closed interval `[0, 1]`. -/
def bin_target_for_iv (s : List (Option ℚ)) (method : String) (cutoff : Option ℚ) (q : ℚ) :
    Except BinError (List ℚ) :=
  if method = "median" then .ok (seriesGe s (medianOpt s))
  else if method = "cutoff" then
    match cutoff with
    | none => .error .invalidParameter
    | some c => .ok (seriesGe s (some c))
  else if method = "quantile" then
    if q < 0 ∨ 1 < q then .error .invalidParameter
    else .ok (seriesGe s (quantileOptS s q))
  else .error .unknownMethod

/-- Follows the spec's words (§4.1), for contrast with the code: a
binarizer in which a missing target entry propagates as missing in the
output instead of receiving a label. -/
def specBinarizeMedian (s : List (Option ℚ)) : List (Option ℚ) :=
  s.map (fun o => o.map (fun v => if (medianOpt s).getD 0 ≤ v then 1 else 0))

/-- `df[[feature, target]].dropna()`: keep the rows where both entries
are present. -/
def joinDropna (rows : List (Option ℚ × Option ℚ)) : List (ℚ × ℚ) :=
  rows.filterMap (fun p =>
    match p with
    | (some a, some b) => some (a, b)
    | _ => none)

/-- the `set(tmp[target].unique()).issubset({0, 1})` sanity check. -/
def ivLabelsOk (rows : List (Option ℚ × Option ℚ)) : Bool :=
  (joinDropna rows).all (fun p => p.2 == 0 || p.2 == 1)

/-- Per-interval `(count, good)` of `compute_iv`'s groupby (`good` is the
sum of the 0/1 labels in the bin), or `none` when `pd.qcut` raises. -/
def ivStats (rows : List (Option ℚ × Option ℚ)) (bins : ℕ) : Option (List (ℕ × ℚ)) :=
  match qcutRank ((joinDropna rows).map (·.1)) bins with
  | none => none
  | some (idxs, m) =>
      some ((groupLabels idxs ((joinDropna rows).map (·.2)) m).map (fun g => (g.length, g.sum)))

/-- `tmp[bin_col].nunique()`: number of observed (non-empty) bins. -/
def ivObserved (rows : List (Option ℚ × Option ℚ)) (bins : ℕ) : ℕ :=
  match ivStats rows bins with
  | none => 0
  | some st => st.countP (fun s => decide (0 < s.1))

/-- Column sum `total_good` of a bin table. -/
def totGood (stats : List (ℕ × ℚ)) : ℚ := (stats.map (·.2)).sum

/-- Column sum `total_bad` of a bin table (`bad = count - good`). -/
def totBad (stats : List (ℕ × ℚ)) : ℚ := (stats.map (fun s => (s.1 : ℚ) - s.2)).sum

/-- `total_good` as computed by `compute_iv` on the given input. -/
def ivTotalGood (rows : List (Option ℚ × Option ℚ)) (bins : ℕ) : ℚ :=
  totGood ((ivStats rows bins).getD [])

/-- `total_bad` as computed by `compute_iv` on the given input. -/
def ivTotalBad (rows : List (Option ℚ × Option ℚ)) (bins : ℕ) : ℚ :=
  totBad ((ivStats rows bins).getD [])

/-- `compute_iv` of `src/iv_analysis.py`.  The result is the integral part
of its bin table, one `(count, good)` row per bin; `bad = count - good`
and the real-valued columns `dist_good`, `dist_bad`, `woe`, `iv_bin` and
the scalar IV are the derived quantities defined below.  `none` is the
`(None, None)` failure value (the function catches every exception). -/
def compute_iv (rows : List (Option ℚ × Option ℚ)) (bins : ℕ) : Option (List (ℕ × ℚ)) :=
  if (joinDropna rows).isEmpty then none
  else if ivLabelsOk rows = false then none
  else
    match ivStats rows bins with
    | none => none
    | some stats =>
      if stats.countP (fun s => decide (0 < s.1)) < 2 then none
      else if totGood stats = 0 ∨ totBad stats = 0 then none
      else some stats

/-- The `1e-10` smoothing constant of `compute_iv`. -/
noncomputable def EPS : ℝ := 1 / 10 ^ 10

/-- `dist_good`/`dist_bad` column: `share = part / (total + 1e-10)`. -/
noncomputable def distG (t g : ℚ) : ℝ := (g : ℝ) / ((t : ℝ) + EPS)

/-- `woe = log((dist_good + 1e-10) / (dist_bad + 1e-10))` of one bin row. -/
noncomputable def woeTerm (tg tb : ℚ) (s : ℕ × ℚ) : ℝ :=
  Real.log ((distG tg s.2 + EPS) / (distG tb ((s.1 : ℚ) - s.2) + EPS))

/-- `iv_bin = (dist_good - dist_bad) * woe` of one bin row. -/
noncomputable def ivBinTerm (tg tb : ℚ) (s : ℕ × ℚ) : ℝ :=
  (distG tg s.2 - distG tb ((s.1 : ℚ) - s.2)) * woeTerm tg tb s

/-- The `woe` column of a bin table. -/
noncomputable def woeList (stats : List (ℕ × ℚ)) : List ℝ :=
  stats.map (woeTerm (totGood stats) (totBad stats))

/-- The scalar IV: sum of the `iv_bin` column. -/
noncomputable def ivValue (stats : List (ℕ × ℚ)) : ℝ :=
  (stats.map (ivBinTerm (totGood stats) (totBad stats))).sum

/-- Relabelling of the two target classes, `0 ↔ 1`, at the data level. -/
def flipRows (rows : List (Option ℚ × Option ℚ)) : List (Option ℚ × Option ℚ) :=
  rows.map (fun p => (p.1, p.2.map (fun v => 1 - v)))

/-- The bin table obtained from `stats` by exchanging good and bad. -/
def flipStats (stats : List (ℕ × ℚ)) : List (ℕ × ℚ) :=
  stats.map (fun s => (s.1, (s.1 : ℚ) - s.2))

/-- One row of a Lift bin report: good-rate, lift and row count. -/
structure LiftBin where
  goodRate : ℚ
  lift : ℚ
  count : ℕ
deriving DecidableEq

/-- `SimpleImputer` strategies offered by the UI. -/
inductive ImputeStrategy where
  | mean
  | median
  | mostFrequent
deriving DecidableEq

/-- Arithmetic mean (of the non-missing values). -/
def meanQ (xs : List ℚ) : ℚ := xs.sum / (xs.length : ℚ)

/-- `most_frequent` statistic: the smallest value of maximal count. -/
def modeQ (xs : List ℚ) : ℚ :=
  match dedupC (sortQ xs) with
  | [] => 0
  | v :: vs =>
      vs.foldl (fun best w =>
        if xs.countP (fun y => decide (y = best)) < xs.countP (fun y => decide (y = w))
        then w else best) v

/-- Per-column `SimpleImputer` fill statistic. -/
def imputeStat (xs : List ℚ) : ImputeStrategy → ℚ
  | .mean => meanQ xs
  | .median => quantileQ xs (1 / 2)
  | .mostFrequent => modeQ xs

/-- `SimpleImputer(strategy).fit_transform` on one column. -/
def imputeCol (xs : List (Option ℚ)) (st : ImputeStrategy) : List (Option ℚ) :=
  xs.map (fun o => some (o.getD (imputeStat (nonMissing xs) st)))

/-- `isna().any()`. -/
def hasMissing (xs : List (Option ℚ)) : Bool := xs.any (fun o => o.isNone)

/-- `isna().all()`. -/
def allMissing (xs : List (Option ℚ)) : Bool := xs.all (fun o => o.isNone)

/-- Column access by name (first match). -/
def getCol (df : List (String × List (Option ℚ))) (name : String) : List (Option ℚ) :=
  ((df.find? (fun c => c.1 == name)).map (·.2)).getD []

/-- Imputation stage of `build_lift_reports` (target first, then the
numeric features with missing entries).  `none` models the uncaught
`ValueError` raised when `SimpleImputer` silently drops an all-missing
column and the dataframe column assignment then fails. -/
def liftImputeTarget (df : List (String × List (Option ℚ))) (target : String)
    (it : Bool) (ts : ImputeStrategy) : List (String × List (Option ℚ)) :=
  if it ∧ hasMissing (getCol df target) then
    df.map (fun c => if c.1 == target then (c.1, imputeCol c.2 ts) else c)
  else df

def liftImpute (df : List (String × List (Option ℚ))) (target : String)
    (it : Bool) (ts : ImputeStrategy) (impF : Bool) (fs : ImputeStrategy) :
    Option (List (String × List (Option ℚ))) :=
  if it ∧ hasMissing (getCol df target) ∧ allMissing (getCol df target) then none
  else if impF ∧ (liftImputeTarget df target it ts).any
      (fun c => c.1 != target && hasMissing c.2 && allMissing c.2) then none
  else some (if impF then
      (liftImputeTarget df target it ts).map
        (fun c => if c.1 != target && hasMissing c.2 then (c.1, imputeCol c.2 fs) else c)
    else liftImputeTarget df target it ts)

/-- `df_clean.dropna(subset=[target])`: every column restricted to the
rows whose target entry is present. -/
def liftDrop (df : List (String × List (Option ℚ))) (target : String) :
    List (String × List (Option ℚ)) :=
  let mask := (getCol df target).map (fun o => o.isSome)
  df.map (fun c => (c.1, (mask.zip c.2).filterMap (fun q => if q.1 then some q.2 else none)))

/-- The Lift builder's target binarization:
`pd.cut(target, [-inf, med, inf], labels=["bad", "good"])` has
right-closed intervals, so a row is "good" exactly when its target value
is strictly greater than the median. -/
def liftTargetBin (tvals : List ℚ) : List Bool :=
  tvals.map (fun v => decide (quantileQ tvals (1 / 2) < v))

/-- `overall = (target_bin == "good").mean()`. -/
def liftOverall (tvals : List ℚ) : ℚ :=
  (((liftTargetBin tvals).countP id : ℕ) : ℚ) / (((liftTargetBin tvals).length : ℕ) : ℚ)

/-- The (feature value, good?) pairs of the rows where the feature is
present; rows with a missing feature get a NaN rank and a NaN bin and
are excluded from the feature's groupby. -/
def liftFeatPairs (col : List (Option ℚ)) (tbin : List Bool) : List (ℚ × Bool) :=
  (col.zip tbin).filterMap (fun q => q.1.map (fun v => (v, q.2)))

/-- One feature's Lift bin table: per bin the good-rate, its ratio to the
overall rate, and the row count (`k = 10` fixed). -/
def liftReport (pairs : List (ℚ × Bool)) (overall : ℚ) : Option (List LiftBin) :=
  match qcutRank (pairs.map (·.1)) 10 with
  | none => none
  | some (idxs, m) =>
      some ((groupLabels idxs (pairs.map (·.2)) m).map (fun g =>
        let gr := ((g.countP id : ℕ) : ℚ) / ((g.length : ℕ) : ℚ)
        ⟨gr, gr / overall, g.length⟩))

/-- `build_lift_reports` of `lift_analysis.py`: impute, drop
missing-target rows, median-split the target, then one Lift table per
numeric feature other than the target, skipping features with fewer than
10 present values and features whose binning raises. -/
def build_lift_reports (df : List (String × List (Option ℚ))) (target : String)
    (it : Bool) (ts : ImputeStrategy) (impF : Bool) (fs : ImputeStrategy) :
    Option (List (String × List LiftBin)) :=
  match liftImpute df target it ts impF fs with
  | none => none
  | some df2 =>
      some (((liftDrop df2 target).filter (fun c => c.1 != target)).filterMap (fun c =>
        if c.2.countP (fun o => o.isSome) < 10 then none
        else (liftReport (liftFeatPairs c.2 (liftTargetBin (nonMissing (getCol df2 target))))
          (liftOverall (nonMissing (getCol df2 target)))).map (fun rep => (c.1, rep))))

/-- The features that survive the Lift builder's per-feature skips. -/
def liftCandidates (df : List (String × List (Option ℚ))) (target : String)
    (it : Bool) (ts : ImputeStrategy) (impF : Bool) (fs : ImputeStrategy) : List String :=
  match liftImpute df target it ts impF fs with
  | none => []
  | some df2 =>
      (((liftDrop df2 target).filter (fun c => c.1 != target)).filter (fun c =>
        !(decide (c.2.countP (fun o => o.isSome) < 10)) &&
          (liftReport (liftFeatPairs c.2 (liftTargetBin (nonMissing (getCol df2 target))))
            (liftOverall (nonMissing (getCol df2 target)))).isSome)).map Prod.fst

/-- Number of realized (observed, non-empty) bins when quantile-binning a
feature's present values through `rank(method="first")` + `pd.qcut`, as
both report builders do; 0 when `pd.cut` raises (callers catch it). -/
def realizedBinCount (xs : List ℚ) (k : ℕ) : ℕ :=
  match qcutRank xs k with
  | none => 0
  | some (idxs, m) => (List.range m).countP (fun j => idxs.any (fun o => o == some (j + 1)))

/-- Concrete feature/label rows: feature 1..4, labels alternating. -/
def rowsW2 : List (Option ℚ × Option ℚ) :=
  [(some 1, some 0), (some 2, some 1), (some 3, some 0), (some 4, some 1)]

/-- Concrete feature/label rows: feature 1..4, labels 0,0,1,1. -/
def rowsW4 : List (Option ℚ × Option ℚ) :=
  [(some 1, some 0), (some 2, some 0), (some 3, some 1), (some 4, some 1)]

/-- Concrete feature/label rows: feature 1..6, labels 1,0,1,0,1,0. -/
def rowsW10 : List (Option ℚ × Option ℚ) :=
  [(some 1, some 1), (some 2, some 0), (some 3, some 1),
   (some 4, some 0), (some 5, some 1), (some 6, some 0)]

/-- Concrete dataset with a constant target and one feature with ten
present values. -/
def dfW5 : List (String × List (Option ℚ)) :=
  [("t", List.replicate 10 (some 7)),
   ("f", [some 1, some 2, some 3, some 4, some 5,
          some 6, some 7, some 8, some 9, some 10])]

/-- Concrete dataset whose feature is missing exactly on the two rows
whose target is "good": target 0 on rows 1-10 and 10 on rows 11-12,
feature 1..10 on rows 1-10 and missing on rows 11-12. -/
def dfW6 : List (String × List (Option ℚ)) :=
  [("t", List.replicate 10 (some 0) ++ [some 10, some 10]),
   ("f", [some 1, some 2, some 3, some 4, some 5,
          some 6, some 7, some 8, some 9, some 10, none, none])]

/-! ### Generic list lemmas -/

theorem sum_map_zeroQ {β : Type} (l : List β) : (l.map (fun _ => (0 : ℚ))).sum = 0 := by
  induction l with
  | nil => simp
  | cons a t ih => simpa using ih

theorem sum_map_addQ {β : Type} (l : List β) (f g : β → ℚ) :
    (l.map (fun x => f x + g x)).sum = (l.map f).sum + (l.map g).sum := by
  induction l with
  | nil => simp
  | cons a t ih => simp [ih]; ring

theorem sum_map_onesQ {β : Type} (l : List β) :
    (l.map (fun _ => (1 : ℚ))).sum = (l.length : ℚ) := by
  induction l with
  | nil => simp
  | cons a t ih => simp [ih]; push_cast; ring

theorem countP_castQ {β : Type} (l : List β) (p : β → Bool) :
    ((l.countP p : ℕ) : ℚ) = (l.map (fun x => if p x then (1 : ℚ) else 0)).sum := by
  induction l with
  | nil => simp
  | cons a t ih =>
      by_cases h : p a = true
      · simp [List.countP_cons, h]; push_cast; rw [← ih]; push_cast; ring
      · simp only [Bool.not_eq_true] at h
        simp [List.countP_cons, h, ih]

theorem sum_map_one_subQ (l : List ℚ) :
    (l.map (fun v => 1 - v)).sum = (l.length : ℚ) - l.sum := by
  induction l with
  | nil => simp
  | cons a t ih => simp [ih]; push_cast; ring

theorem single_hitQ (m k : ℕ) (c : ℚ) :
    ((List.range m).map (fun j => if k = j + 1 then c else 0)).sum
      = if 1 ≤ k ∧ k ≤ m then c else 0 := by
  induction m with
  | zero =>
      have h0 : ¬ (1 ≤ k ∧ k ≤ 0) := by omega
      simp only [List.range_zero, List.map_nil, List.sum_nil]
      rw [if_neg h0]
  | succ m ih =>
      rw [List.range_succ, List.map_append, List.sum_append, ih]
      simp only [List.map_cons, List.map_nil, List.sum_cons, List.sum_nil]
      rcases Nat.lt_trichotomy k (m + 1) with h | h | h
      · have h1 : ¬ k = m + 1 := by omega
        by_cases h2 : 1 ≤ k
        · have h3 : k ≤ m := by omega
          have h4 : k ≤ m + 1 := by omega
          simp [h1, h2, h3, h4]
        · have h3 : ¬ (1 ≤ k ∧ k ≤ m) := by omega
          have h4 : ¬ (1 ≤ k ∧ k ≤ m + 1) := by omega
          simp [h1, h3, h4]
      · have h1 : ¬ (1 ≤ k ∧ k ≤ m) := by omega
        have h2 : 1 ≤ k ∧ k ≤ m + 1 := by omega
        simp [h, h1, h2]
      · have h1 : ¬ k = m + 1 := by omega
        have h2 : ¬ (1 ≤ k ∧ k ≤ m) := by omega
        have h3 : ¬ (1 ≤ k ∧ k ≤ m + 1) := by omega
        simp [h1, h2, h3]

theorem countP_le_lengthQ {β : Type} (l : List β) (p : β → Bool) :
    l.countP p ≤ l.length := by
  induction l with
  | nil => simp
  | cons b t ih =>
      cases hb : p b <;> simp [List.countP_cons, hb] <;> omega

theorem countP_lt_of_mem_notQ {β : Type} (l : List β) (p : β → Bool) (a : β)
    (ha : a ∈ l) (hpa : p a = false) : l.countP p < l.length := by
  induction l with
  | nil => cases ha
  | cons b t ih =>
      rcases List.mem_cons.1 ha with rfl | hmem
      · rw [List.countP_cons, hpa]
        simp only [Bool.false_eq_true, if_false, Nat.add_zero, List.length_cons]
        have := countP_le_lengthQ t p
        omega
      · have := ih hmem
        cases hb : p b <;> simp [List.countP_cons, hb] <;> omega

theorem sum01_boundsQ (l : List ℚ) (h : ∀ x ∈ l, x = 0 ∨ x = 1) :
    0 ≤ l.sum ∧ l.sum ≤ (l.length : ℚ) := by
  induction l with
  | nil => simp
  | cons a t ih =>
      have ha := h a (List.mem_cons_self a t)
      have ht := ih (fun x hx => h x (List.mem_cons_of_mem a hx))
      simp only [List.sum_cons, List.length_cons]
      push_cast
      rcases ha with rfl | rfl <;> constructor <;> linarith [ht.1, ht.2]

/-! ### Partition of a list over bin indices -/

theorem partitionSumQ {α : Type} (f : α → ℚ) (m : ℕ) :
    ∀ (l : List (Option ℕ × α)),
      (∀ p ∈ l, ∃ j, p.1 = some j ∧ 1 ≤ j ∧ j ≤ m) →
      ((List.range m).map (fun j =>
        ((l.filterMap (fun q => if q.1 = some (j + 1) then some q.2 else none)).map f).sum)).sum
      = (l.map (fun q => f q.2)).sum := by
  intro l
  induction l with
  | nil =>
      intro _
      simp only [List.filterMap_nil, List.map_nil, List.sum_nil]
      exact sum_map_zeroQ _
  | cons p t ih =>
      intro h
      obtain ⟨j0, hj0, hj1, hj2⟩ := h p (List.mem_cons_self p t)
      have ht := ih (fun q hq => h q (List.mem_cons_of_mem p hq))
      have key : ∀ j : ℕ,
          (((p :: t).filterMap (fun q => if q.1 = some (j + 1) then some q.2 else none)).map f).sum
          = (if j0 = j + 1 then f p.2 else 0)
            + ((t.filterMap (fun q => if q.1 = some (j + 1) then some q.2 else none)).map f).sum := by
        intro j
        by_cases hj : j0 = j + 1
        · have hp : p.1 = some (j + 1) := by rw [hj0, hj]
          simp [List.filterMap_cons, hp, hj]
        · have hp : ¬ p.1 = some (j + 1) := by
            rw [hj0]
            intro hcon
            exact hj (Option.some.inj hcon)
          simp [List.filterMap_cons, hp, hj]
      simp only [key, sum_map_addQ, single_hitQ]
      have hcond : 1 ≤ j0 ∧ j0 ≤ m := ⟨hj1, hj2⟩
      rw [if_pos hcond, ht]
      simp

theorem groupLabels_sumQ {α : Type} (idxs : List (Option ℕ)) (ls : List α) (m : ℕ) (f : α → ℚ)
    (h : ∀ p ∈ idxs.zip ls, ∃ j, p.1 = some j ∧ 1 ≤ j ∧ j ≤ m) :
    ((groupLabels idxs ls m).map (fun g => (g.map f).sum)).sum
      = ((idxs.zip ls).map (fun q => f q.2)).sum := by
  unfold groupLabels
  rw [List.map_map]
  exact partitionSumQ f m (idxs.zip ls) h

/-! ### Sorting, quantiles, deduplication -/

theorem sortQ_sorted (xs : List ℚ) : List.Sorted (· ≤ ·) (sortQ xs) :=
  List.sorted_insertionSort _ xs

theorem sortQ_perm (xs : List ℚ) : (sortQ xs).Perm xs := List.perm_insertionSort _ xs

theorem mem_sortQ {xs : List ℚ} {v : ℚ} : v ∈ sortQ xs ↔ v ∈ xs := (sortQ_perm xs).mem_iff

theorem sortQ_length (xs : List ℚ) : (sortQ xs).length = xs.length := (sortQ_perm xs).length_eq

theorem sortQ_ne_nil (xs : List ℚ) (hx : xs ≠ []) : sortQ xs ≠ [] := by
  intro h
  apply hx
  have hl := sortQ_length xs
  rw [h] at hl
  exact List.length_eq_zero.1 hl.symm

theorem sorted_getD_zero_le (s : List ℚ) (hs : List.Sorted (· ≤ ·) s) (v : ℚ) (hv : v ∈ s) :
    s.getD 0 0 ≤ v := by
  induction s with
  | nil => cases hv
  | cons a t ih =>
      rcases List.mem_cons.1 hv with rfl | hmem
      · simp
      · have := (List.sorted_cons.1 hs).1 v hmem
        simpa using this

theorem sorted_le_getLastD :
    ∀ (s : List ℚ), List.Sorted (· ≤ ·) s → ∀ v ∈ s, ∀ d : ℚ, v ≤ s.getLastD d := by
  intro s
  induction s with
  | nil => intro _ v hv; cases hv
  | cons a t ih =>
      intro hs v hv d
      rw [List.getLastD_cons]
      rcases List.mem_cons.1 hv with rfl | hmem
      · cases t with
        | nil => simp
        | cons b t2 =>
            have h1 : v ≤ b := (List.sorted_cons.1 hs).1 b (List.mem_cons_self b t2)
            have h2 := ih (List.sorted_cons.1 hs).2 b (List.mem_cons_self b t2) v
            exact le_trans h1 h2
      · exact ih (List.sorted_cons.1 hs).2 v hmem a

theorem getD_last_eqQ :
    ∀ (s : List ℚ) (d₁ d₂ : ℚ), s ≠ [] → s.getD (s.length - 1) d₁ = s.getLastD d₂ := by
  intro s
  induction s with
  | nil => intro _ _ h; cases h rfl
  | cons a t ih =>
      intro d₁ d₂ _
      cases t with
      | nil => simp
      | cons b t2 =>
          rw [List.getLastD_cons]
          simp only [List.length_cons, Nat.add_sub_cancel]
          rw [List.getD_cons_succ]
          have := ih d₁ a (by simp)
          simpa using this

theorem getD_of_all_eqQ :
    ∀ (s : List ℚ) (i : ℕ) (d c : ℚ), i < s.length → (∀ x ∈ s, x = c) → s.getD i d = c := by
  intro s
  induction s with
  | nil => intro i d c h; cases (Nat.not_lt_zero i) h
  | cons a t ih =>
      intro i d c hi hall
      cases i with
      | zero => simpa using hall a (List.mem_cons_self a t)
      | succ j =>
          rw [List.getD_cons_succ]
          exact ih j d c (by simpa using hi) (fun x hx => hall x (List.mem_cons_of_mem a hx))

theorem getLastD_memQ : ∀ (s : List ℚ) (d : ℚ), s ≠ [] → s.getLastD d ∈ s := by
  intro s
  induction s with
  | nil => intro _ h; cases h rfl
  | cons a t ih =>
      intro d _
      rw [List.getLastD_cons]
      cases t with
      | nil => simp
      | cons b t2 => exact List.mem_cons_of_mem a (ih a (by simp))

theorem ratFloor_eq_intFloor (q : ℚ) : Rat.floor q = Int.floor q := by
  rw [Rat.floor_def', Rat.floor_def]

theorem quantileQ_zero (xs : List ℚ) (hx : xs ≠ []) :
    quantileQ xs 0 = (sortQ xs).getD 0 0 := by
  have hne := sortQ_ne_nil xs hx
  unfold quantileQ
  rw [if_neg (by simpa using hne)]
  norm_num [ratFloor_eq_intFloor]

theorem quantileQ_one (xs : List ℚ) (hx : xs ≠ []) :
    quantileQ xs 1 = (sortQ xs).getLastD 0 := by
  have hne := sortQ_ne_nil xs hx
  have hlen : 1 ≤ (sortQ xs).length := by
    cases h : sortQ xs with
    | nil => cases hne h
    | cons a t => simp
  unfold quantileQ
  rw [if_neg (by simpa using hne)]
  have hcast : ((sortQ xs).length : ℚ) - 1 = (((sortQ xs).length - 1 : ℕ) : ℚ) := by
    push_cast [hlen]
    ring
  dsimp only
  rw [one_mul, hcast, ratFloor_eq_intFloor, Int.floor_natCast]
  simp only [Int.toNat_natCast, sub_self, zero_mul, add_zero]
  exact getD_last_eqQ (sortQ xs) 0 0 hne

theorem quantileQ_const (xs : List ℚ) (p c : ℚ) (h0 : 0 ≤ p) (h1 : p ≤ 1)
    (hx : xs ≠ []) (hall : ∀ x ∈ xs, x = c) : quantileQ xs p = c := by
  have hne := sortQ_ne_nil xs hx
  have hlen : 1 ≤ (sortQ xs).length := by
    cases h : sortQ xs with
    | nil => cases hne h
    | cons a t => simp
  have halls : ∀ x ∈ sortQ xs, x = c := fun x hx2 => hall x (mem_sortQ.1 hx2)
  unfold quantileQ
  rw [if_neg (by simpa using hne)]
  have hpos0 : 0 ≤ p * (((sortQ xs).length : ℚ) - 1) := by
    apply mul_nonneg h0
    have : (1 : ℚ) ≤ ((sortQ xs).length : ℚ) := by exact_mod_cast hlen
    linarith
  have hposle : p * (((sortQ xs).length : ℚ) - 1) ≤ ((sortQ xs).length : ℚ) - 1 := by
    have hge : (0 : ℚ) ≤ ((sortQ xs).length : ℚ) - 1 := by
      have : (1 : ℚ) ≤ ((sortQ xs).length : ℚ) := by exact_mod_cast hlen
      linarith
    nlinarith
  have hfl0 : 0 ≤ Int.floor (p * (((sortQ xs).length : ℚ) - 1)) := by
    exact Int.floor_nonneg.2 hpos0
  have hcast : ((sortQ xs).length : ℚ) - 1 = (((sortQ xs).length - 1 : ℕ) : ℚ) := by
    push_cast [hlen]
    ring
  have hfloor_eq : Int.floor (((sortQ xs).length : ℚ) - 1) = (((sortQ xs).length - 1 : ℕ) : ℤ) := by
    rw [hcast, Int.floor_natCast]
  have hflle : Int.floor (p * (((sortQ xs).length : ℚ) - 1)) ≤ (((sortQ xs).length - 1 : ℕ) : ℤ) := by
    calc Int.floor (p * (((sortQ xs).length : ℚ) - 1))
        ≤ Int.floor (((sortQ xs).length : ℚ) - 1) := Int.floor_le_floor hposle
      _ = (((sortQ xs).length - 1 : ℕ) : ℤ) := hfloor_eq
  have hidx : (Int.floor (p * (((sortQ xs).length : ℚ) - 1))).toNat < (sortQ xs).length := by
    omega
  have hidx2 : min ((Int.floor (p * (((sortQ xs).length : ℚ) - 1))).toNat + 1)
      ((sortQ xs).length - 1) < (sortQ xs).length := by
    omega
  dsimp only
  rw [ratFloor_eq_intFloor]
  rw [getD_of_all_eqQ (sortQ xs) _ 0 c hidx halls,
      getD_of_all_eqQ (sortQ xs) _ 0 c hidx2 halls]
  ring

theorem dedupC_ne_nil : ∀ (l : List ℚ), l ≠ [] → dedupC l ≠ [] := by
  intro l
  induction l with
  | nil => intro h; cases h rfl
  | cons a t ih =>
      intro _
      cases t with
      | nil => simp [dedupC]
      | cons b t2 =>
          rw [dedupC]
          by_cases hab : a = b
          · rw [if_pos hab]
            exact ih (by simp)
          · rw [if_neg hab]
            simp

theorem dedupC_headD : ∀ (l : List ℚ) (d : ℚ), (dedupC l).headD d = l.headD d := by
  intro l
  induction l with
  | nil => intro d; rfl
  | cons a t ih =>
      intro d
      cases t with
      | nil => rfl
      | cons b t2 =>
          rw [dedupC]
          by_cases hab : a = b
          · rw [if_pos hab, ih d]
            simp [hab]
          · rw [if_neg hab]
            simp

theorem dedupC_getLastD : ∀ (l : List ℚ) (d : ℚ), (dedupC l).getLastD d = l.getLastD d := by
  intro l
  induction l with
  | nil => intro d; rfl
  | cons a t ih =>
      intro d
      cases t with
      | nil => rfl
      | cons b t2 =>
          rw [dedupC, List.getLastD_cons]
          by_cases hab : a = b
          · rw [if_pos hab, ih d, List.getLastD_cons, List.getLastD_cons]
          · rw [if_neg hab, List.getLastD_cons, ih a, List.getLastD_cons]

theorem dedupC_length_le : ∀ (l : List ℚ), (dedupC l).length ≤ l.length := by
  intro l
  induction l with
  | nil => simp [dedupC]
  | cons a t ih =>
      cases t with
      | nil => simp [dedupC]
      | cons b t2 =>
          rw [dedupC]
          by_cases hab : a = b
          · rw [if_pos hab]
            simp only [List.length_cons] at ih ⊢
            omega
          · rw [if_neg hab]
            simp only [List.length_cons] at ih ⊢
            omega

/-! ### Structure of a successful qcut -/

theorem rankFirst_length (xs : List ℚ) : (rankFirst xs).length = xs.length := by
  unfold rankFirst
  rw [List.length_map, List.enum_length]

theorem qcutEdges_headD (xs : List ℚ) (k : ℕ) :
    (qcutEdges xs k).headD 0 = quantileQ xs 0 := by
  unfold qcutEdges
  rw [dedupC_headD, List.range_succ_eq_map, List.map_cons]
  simp

theorem qcutEdges_getLastD (xs : List ℚ) (k : ℕ) (hk : k ≠ 0) :
    (qcutEdges xs k).getLastD 0 = quantileQ xs 1 := by
  unfold qcutEdges
  rw [dedupC_getLastD, List.range_succ, List.map_append]
  simp only [List.map_cons, List.map_nil]
  rw [List.getLastD_concat]
  rw [div_self (by exact_mod_cast hk)]

theorem qcutEdges_k_pos (xs : List ℚ) (k : ℕ) (h : ¬ (qcutEdges xs k).length < 2) :
    k ≠ 0 := by
  intro hk
  subst hk
  apply h
  unfold qcutEdges
  simp [dedupC]

theorem qcutRank_some_spec (xs : List ℚ) (k : ℕ) (idxs : List (Option ℕ)) (m : ℕ)
    (h : qcutRank xs k = some (idxs, m)) :
    idxs.length = xs.length ∧ 1 ≤ m ∧
      ∀ o ∈ idxs, ∃ j, o = some j ∧ 1 ≤ j ∧ j ≤ m := by
  have h2 : (if (qcutEdges (rankFirst xs) k).length < 2 then none
      else some ((rankFirst xs).map (binIdxOpt (qcutEdges (rankFirst xs) k)),
        (qcutEdges (rankFirst xs) k).length - 1)) = some (idxs, m) := h
  by_cases hlen : (qcutEdges (rankFirst xs) k).length < 2
  · rw [if_pos hlen] at h2
    cases h2
  · rw [if_neg hlen] at h2
    have hpair := Option.some.inj h2
    have hidxs : idxs = (rankFirst xs).map (binIdxOpt (qcutEdges (rankFirst xs) k)) :=
      (congrArg Prod.fst hpair).symm
    have hm : m = (qcutEdges (rankFirst xs) k).length - 1 :=
      (congrArg Prod.snd hpair).symm
    refine ⟨by rw [hidxs, List.length_map, rankFirst_length], by omega, ?_⟩
    intro o ho
    rw [hidxs] at ho
    obtain ⟨v, hv, hov⟩ := List.mem_map.1 ho
    have hLne : rankFirst xs ≠ [] := List.ne_nil_of_mem hv
    have hk := qcutEdges_k_pos (rankFirst xs) k hlen
    have hvs : v ∈ sortQ (rankFirst xs) := mem_sortQ.2 hv
    have hlow : (qcutEdges (rankFirst xs) k).headD 0 ≤ v := by
      rw [qcutEdges_headD, quantileQ_zero (rankFirst xs) hLne]
      exact sorted_getD_zero_le (sortQ (rankFirst xs)) (sortQ_sorted (rankFirst xs)) v hvs
    have hhigh : v ≤ (qcutEdges (rankFirst xs) k).getLastD 0 := by
      rw [qcutEdges_getLastD (rankFirst xs) k hk, quantileQ_one (rankFirst xs) hLne]
      exact sorted_le_getLastD (sortQ (rankFirst xs)) (sortQ_sorted (rankFirst xs)) v hvs 0
    have hguard : ¬ (v < (qcutEdges (rankFirst xs) k).headD 0
        ∨ (qcutEdges (rankFirst xs) k).getLastD 0 < v) := by
      push_neg
      exact ⟨hlow, hhigh⟩
    rw [binIdxOpt, if_neg hguard] at hov
    refine ⟨((qcutEdges (rankFirst xs) k).drop 1).countP (fun e => decide (e < v)) + 1,
      hov.symm, by omega, ?_⟩
    cases hes : qcutEdges (rankFirst xs) k with
    | nil => rw [hes] at hlen; simp at hlen
    | cons e0 t =>
        have htne : t ≠ [] := by
          intro hcon
          rw [hes, hcon] at hlen
          simp at hlen
        have hwmem : (qcutEdges (rankFirst xs) k).getLastD 0 ∈ t := by
          rw [hes, List.getLastD_cons]
          exact getLastD_memQ t e0 htne
        have hwfalse : (fun e => decide (e < v)) ((qcutEdges (rankFirst xs) k).getLastD 0) = false := by
          simp only [decide_eq_false_iff_not]
          exact not_lt.2 hhigh
        have hcount := countP_lt_of_mem_notQ t (fun e => decide (e < v))
          ((qcutEdges (rankFirst xs) k).getLastD 0) hwmem hwfalse
        rw [hes] at hm
        simp only [List.drop_succ_cons, List.drop_zero, List.length_cons] at hm hcount ⊢
        omega

/-! ### Structure of a successful compute_iv -/

theorem groupLabels_mem {α : Type} (idxs : List (Option ℕ)) (ls : List α) (m : ℕ)
    (g : List α) (hg : g ∈ groupLabels idxs ls m) (x : α) (hx : x ∈ g) : x ∈ ls := by
  unfold groupLabels at hg
  obtain ⟨j, _, rfl⟩ := List.mem_map.1 hg
  obtain ⟨q, hq, hq2⟩ := List.mem_filterMap.1 hx
  by_cases hcq : q.1 = some (j + 1)
  · rw [if_pos hcq] at hq2
    have hx2 : q.2 = x := Option.some.inj hq2
    obtain ⟨q1, q2⟩ := q
    subst hx2
    exact (List.of_mem_zip hq).2
  · rw [if_neg hcq] at hq2
    cases hq2

theorem ivLabelsOk_elts (rows : List (Option ℚ × Option ℚ)) (h : ivLabelsOk rows = true) :
    ∀ x ∈ (joinDropna rows).map (·.2), x = 0 ∨ x = 1 := by
  intro x hx
  obtain ⟨p, hp, rfl⟩ := List.mem_map.1 hx
  have := List.all_eq_true.1 h p hp
  simpa using this

theorem compute_iv_some_spec (rows : List (Option ℚ × Option ℚ)) (bins : ℕ)
    (stats : List (ℕ × ℚ)) (h : compute_iv rows bins = some stats) :
    ∃ idxs m,
      qcutRank ((joinDropna rows).map (·.1)) bins = some (idxs, m) ∧
      stats = (groupLabels idxs ((joinDropna rows).map (·.2)) m).map (fun g => (g.length, g.sum)) ∧
      ivLabelsOk rows = true ∧
      joinDropna rows ≠ [] ∧
      2 ≤ stats.countP (fun s => decide (0 < s.1)) ∧
      ¬ (totGood stats = 0 ∨ totBad stats = 0) := by
  unfold compute_iv at h
  by_cases he : (joinDropna rows).isEmpty
  · rw [if_pos he] at h; cases h
  rw [if_neg he] at h
  by_cases hl : ivLabelsOk rows = false
  · rw [if_pos hl] at h; cases h
  rw [if_neg hl] at h
  cases hst : ivStats rows bins with
  | none => rw [hst] at h; cases h
  | some stats2 =>
      rw [hst] at h
      dsimp only at h
      by_cases hc : stats2.countP (fun s => decide (0 < s.1)) < 2
      · rw [if_pos hc] at h; cases h
      rw [if_neg hc] at h
      by_cases ht : totGood stats2 = 0 ∨ totBad stats2 = 0
      · rw [if_pos ht] at h; cases h
      rw [if_neg ht] at h
      have hse : stats2 = stats := Option.some.inj h
      subst hse
      unfold ivStats at hst
      cases hqc : qcutRank ((joinDropna rows).map (·.1)) bins with
      | none => rw [hqc] at hst; cases hst
      | some pr =>
          rw [hqc] at hst
          obtain ⟨idxs, m⟩ := pr
          dsimp only at hst
          refine ⟨idxs, m, rfl, (Option.some.inj hst).symm, ?_, ?_, by omega, ht⟩
          · cases hv : ivLabelsOk rows
            · exact absurd hv hl
            · rfl
          · intro hcon
            apply he
            rw [hcon]
            rfl

theorem compute_iv_stats_bounds (rows : List (Option ℚ × Option ℚ)) (bins : ℕ)
    (stats : List (ℕ × ℚ)) (h : compute_iv rows bins = some stats) :
    ∀ s ∈ stats, 0 ≤ s.2 ∧ s.2 ≤ (s.1 : ℚ) := by
  obtain ⟨idxs, m, _, hstats, hlab, _, _, _⟩ := compute_iv_some_spec rows bins stats h
  intro s hs
  rw [hstats] at hs
  obtain ⟨g, hg, rfl⟩ := List.mem_map.1 hs
  have hls : ∀ x ∈ g, x = 0 ∨ x = 1 := by
    intro x hx
    exact ivLabelsOk_elts rows hlab x
      (groupLabels_mem idxs ((joinDropna rows).map (·.2)) m g hg x hx)
  exact sum01_boundsQ g hls

theorem totGood_nonneg (stats : List (ℕ × ℚ))
    (hb : ∀ s ∈ stats, 0 ≤ s.2 ∧ s.2 ≤ (s.1 : ℚ)) : 0 ≤ totGood stats := by
  unfold totGood
  apply List.sum_nonneg
  intro x hx
  obtain ⟨s, hs, rfl⟩ := List.mem_map.1 hx
  exact (hb s hs).1

theorem totBad_nonneg (stats : List (ℕ × ℚ))
    (hb : ∀ s ∈ stats, 0 ≤ s.2 ∧ s.2 ≤ (s.1 : ℚ)) : 0 ≤ totBad stats := by
  unfold totBad
  apply List.sum_nonneg
  intro x hx
  obtain ⟨s, hs, rfl⟩ := List.mem_map.1 hx
  have := (hb s hs).2
  linarith

theorem groupStats_count_sum (idxs : List (Option ℕ)) (ls : List ℚ) (m : ℕ)
    (hrange : ∀ o ∈ idxs, ∃ j, o = some j ∧ 1 ≤ j ∧ j ≤ m)
    (hlen : ls.length = idxs.length) :
    (((groupLabels idxs ls m).map (fun g => (g.length, g.sum))).map
        (fun s => ((s.1 : ℕ) : ℚ))).sum = (idxs.length : ℚ) := by
  simp only [List.map_map]
  have hfun : ((fun s : ℕ × ℚ => ((s.1 : ℕ) : ℚ)) ∘ (fun g : List ℚ => (g.length, g.sum)))
      = fun g : List ℚ => (g.map (fun _ => (1 : ℚ))).sum := by
    funext g
    exact (sum_map_onesQ g).symm
  rw [hfun]
  have hzip : ∀ p ∈ idxs.zip ls, ∃ j, p.1 = some j ∧ 1 ≤ j ∧ j ≤ m := by
    intro p hp
    obtain ⟨o, x⟩ := p
    exact hrange o (List.of_mem_zip hp).1
  rw [groupLabels_sumQ idxs ls m (fun _ => (1 : ℚ)) hzip]
  rw [sum_map_onesQ]
  rw [List.length_zip, hlen]
  simp

theorem compute_iv_count_sum (rows : List (Option ℚ × Option ℚ)) (bins : ℕ)
    (stats : List (ℕ × ℚ)) (h : compute_iv rows bins = some stats) :
    (stats.map (fun s => ((s.1 : ℕ) : ℚ))).sum = ((joinDropna rows).length : ℚ) := by
  obtain ⟨idxs, m, hqc, hstats, _, _, _, _⟩ := compute_iv_some_spec rows bins stats h
  obtain ⟨hlen, _, hrange⟩ := qcutRank_some_spec _ _ _ _ hqc
  have hlen3 : ((joinDropna rows).length : ℚ) = (idxs.length : ℚ) := by
    rw [hlen, List.length_map]
  rw [hstats, hlen3]
  refine groupStats_count_sum idxs _ m hrange ?_
  rw [hlen, List.length_map, List.length_map]

/-! ### Real-valued IV quantities -/

theorem EPS_pos : 0 < EPS := by
  unfold EPS
  positivity

theorem iv_term_nonneg (a b : ℝ) (ha : 0 ≤ a) (hb : 0 ≤ b) :
    0 ≤ (a - b) * Real.log ((a + EPS) / (b + EPS)) := by
  have hae : 0 < a + EPS := by linarith [EPS_pos]
  have hbe : 0 < b + EPS := by linarith [EPS_pos]
  rcases le_total b a with hba | hab
  · apply mul_nonneg (by linarith)
    apply Real.log_nonneg
    rw [le_div_iff hbe]
    linarith
  · have h1 : (a - b) ≤ 0 := by linarith
    have h2 : Real.log ((a + EPS) / (b + EPS)) ≤ 0 := by
      apply Real.log_nonpos (by positivity)
      rw [div_le_one hbe]
      linarith
    have h3 := mul_nonneg (neg_nonneg.2 h1) (neg_nonneg.2 h2)
    rw [neg_mul_neg] at h3
    exact h3

theorem distG_nonneg (t g : ℚ) (ht : 0 ≤ t) (hg : 0 ≤ g) : 0 ≤ distG t g := by
  unfold distG
  apply div_nonneg (by exact_mod_cast hg)
  have h1 : (0 : ℝ) ≤ (t : ℝ) := by exact_mod_cast ht
  linarith [EPS_pos]

theorem ivBinTerm_nonneg (tg tb : ℚ) (s : ℕ × ℚ) (htg : 0 ≤ tg) (htb : 0 ≤ tb)
    (hg : 0 ≤ s.2) (hbad : 0 ≤ (s.1 : ℚ) - s.2) : 0 ≤ ivBinTerm tg tb s := by
  unfold ivBinTerm woeTerm
  exact iv_term_nonneg _ _ (distG_nonneg _ _ htg hg) (distG_nonneg _ _ htb hbad)

theorem ivValue_nonneg (stats : List (ℕ × ℚ))
    (hb : ∀ s ∈ stats, 0 ≤ s.2 ∧ s.2 ≤ (s.1 : ℚ)) : 0 ≤ ivValue stats := by
  unfold ivValue
  apply List.sum_nonneg
  intro x hx
  obtain ⟨s, hs, rfl⟩ := List.mem_map.1 hx
  exact ivBinTerm_nonneg _ _ s (totGood_nonneg stats hb) (totBad_nonneg stats hb)
    (hb s hs).1 (by linarith [(hb s hs).2])

/-! ### Label flip -/

theorem joinDropna_flip (rows : List (Option ℚ × Option ℚ)) :
    joinDropna (flipRows rows) = (joinDropna rows).map (fun p => (p.1, 1 - p.2)) := by
  induction rows with
  | nil => rfl
  | cons p t ih =>
      obtain ⟨a, b⟩ := p
      cases a <;> cases b <;>
        simp only [flipRows, List.map_cons, joinDropna, List.filterMap_cons, Option.map_none,
          Option.map_some] at ih ⊢ <;>
        simp [ih]

theorem joinDropna_flip_fst (rows : List (Option ℚ × Option ℚ)) :
    (joinDropna (flipRows rows)).map (·.1) = (joinDropna rows).map (·.1) := by
  rw [joinDropna_flip, List.map_map]
  rfl

theorem joinDropna_flip_snd (rows : List (Option ℚ × Option ℚ)) :
    (joinDropna (flipRows rows)).map (·.2)
      = ((joinDropna rows).map (·.2)).map (fun v => 1 - v) := by
  rw [joinDropna_flip, List.map_map, List.map_map]
  rfl

theorem ivLabelsOk_flip (rows : List (Option ℚ × Option ℚ)) (h : ivLabelsOk rows = true) :
    ivLabelsOk (flipRows rows) = true := by
  unfold ivLabelsOk at h ⊢
  rw [joinDropna_flip, List.all_map]
  rw [List.all_eq_true] at h ⊢
  intro p hp
  have := h p hp
  simp only [Function.comp_apply]
  rcases (by simpa using this : p.2 = 0 ∨ p.2 = 1) with h2 | h2 <;> simp [h2]

theorem groupLabels_map {α β : Type} (idxs : List (Option ℕ)) (ls : List α) (m : ℕ) (f : α → β) :
    groupLabels idxs (ls.map f) m = (groupLabels idxs ls m).map (List.map f) := by
  unfold groupLabels
  rw [List.map_map]
  have hfun : ∀ j : ℕ,
      (idxs.zip (ls.map f)).filterMap (fun q => if q.1 = some (j + 1) then some q.2 else none)
      = List.map f ((idxs.zip ls).filterMap (fun q => if q.1 = some (j + 1) then some q.2 else none)) := by
    intro j
    rw [List.zip_map_right, List.filterMap_map, List.map_filterMap]
    apply List.filterMap_congr
    intro q _
    by_cases hq : q.1 = some (j + 1)
    · simp [Prod.map, hq]
    · simp [Prod.map, hq]
  exact List.map_congr_left (fun j _ => hfun j)

theorem totGood_flip (stats : List (ℕ × ℚ)) : totGood (flipStats stats) = totBad stats := by
  unfold totGood totBad flipStats
  rw [List.map_map]
  rfl

theorem totBad_flip (stats : List (ℕ × ℚ)) : totBad (flipStats stats) = totGood stats := by
  unfold totGood totBad flipStats
  rw [List.map_map]
  have hfun : ((fun s : ℕ × ℚ => (s.1 : ℚ) - s.2) ∘ (fun s : ℕ × ℚ => (s.1, (s.1 : ℚ) - s.2)))
      = fun s : ℕ × ℚ => s.2 := by
    funext s
    dsimp
    ring
  rw [hfun]

theorem ivStats_flip (rows : List (Option ℚ × Option ℚ)) (bins : ℕ) :
    ivStats (flipRows rows) bins = (ivStats rows bins).map flipStats := by
  unfold ivStats
  rw [joinDropna_flip_fst]
  cases qcutRank ((joinDropna rows).map (·.1)) bins with
  | none => rfl
  | some pr =>
      obtain ⟨idxs, m⟩ := pr
      dsimp only [Option.map_some]
      congr 1
      rw [joinDropna_flip_snd, groupLabels_map]
      unfold flipStats
      rw [List.map_map, List.map_map]
      have hfun : ((fun g : List ℚ => (g.length, g.sum)) ∘ List.map (fun v => 1 - v))
          = ((fun s : ℕ × ℚ => (s.1, (s.1 : ℚ) - s.2)) ∘ (fun g : List ℚ => (g.length, g.sum))) := by
        funext g
        simp only [Function.comp_apply, List.length_map, Prod.mk.injEq, true_and]
        exact sum_map_one_subQ g
      rw [hfun]

theorem countP_flipStats (stats : List (ℕ × ℚ)) :
    (flipStats stats).countP (fun s => decide (0 < s.1))
      = stats.countP (fun s => decide (0 < s.1)) := by
  unfold flipStats
  rw [List.countP_map]
  rfl

theorem compute_iv_flip (rows : List (Option ℚ × Option ℚ)) (bins : ℕ)
    (stats : List (ℕ × ℚ)) (h : compute_iv rows bins = some stats) :
    compute_iv (flipRows rows) bins = some (flipStats stats) := by
  obtain ⟨idxs, m, hqc, hstats, hlab, hne, hcount, htot⟩ :=
    compute_iv_some_spec rows bins stats h
  have hivs : ivStats rows bins = some stats := by
    unfold ivStats
    rw [hqc]
    dsimp only
    rw [← hstats]
  have hemp : (joinDropna (flipRows rows)).isEmpty = false := by
    rw [joinDropna_flip]
    cases hj : joinDropna rows with
    | nil => cases hne hj
    | cons a t => simp
  unfold compute_iv
  rw [hemp]
  simp only [Bool.false_eq_true, if_false]
  rw [ivLabelsOk_flip rows hlab]
  simp only [Bool.true_eq_false, if_false]
  rw [ivStats_flip, hivs]
  simp only [Option.map_some']
  rw [countP_flipStats]
  rw [if_neg (by omega)]
  rw [totGood_flip, totBad_flip]
  rw [if_neg (by tauto)]

theorem woeTerm_flip (tg tb : ℚ) (s : ℕ × ℚ) :
    woeTerm tb tg (s.1, (s.1 : ℚ) - s.2) = - woeTerm tg tb s := by
  unfold woeTerm
  dsimp only
  have hsimp : ((s.1 : ℚ) - ((s.1 : ℚ) - s.2)) = s.2 := by ring
  rw [hsimp]
  have hlog := Real.log_inv ((distG tg s.2 + EPS) / (distG tb ((s.1 : ℚ) - s.2) + EPS))
  rw [inv_div] at hlog
  rw [hlog]

theorem woeList_flip (stats : List (ℕ × ℚ)) :
    woeList (flipStats stats) = (woeList stats).map Neg.neg := by
  unfold woeList
  rw [totGood_flip, totBad_flip]
  unfold flipStats
  rw [List.map_map, List.map_map]
  have hfun : (woeTerm (totBad stats) (totGood stats) ∘ fun s : ℕ × ℚ => (s.1, (s.1 : ℚ) - s.2))
      = (Neg.neg ∘ woeTerm (totGood stats) (totBad stats)) := by
    funext s
    exact woeTerm_flip (totGood stats) (totBad stats) s
  rw [hfun]

theorem ivValue_flip (stats : List (ℕ × ℚ)) : ivValue (flipStats stats) = ivValue stats := by
  unfold ivValue
  rw [totGood_flip, totBad_flip]
  unfold flipStats
  rw [List.map_map]
  have hfun : (ivBinTerm (totBad stats) (totGood stats) ∘ fun s : ℕ × ℚ => (s.1, (s.1 : ℚ) - s.2))
      = ivBinTerm (totGood stats) (totBad stats) := by
    funext s
    unfold ivBinTerm
    dsimp only [Function.comp_apply]
    have hsimp : ((s.1 : ℚ) - ((s.1 : ℚ) - s.2)) = s.2 := by ring
    rw [hsimp]
    have hw := woeTerm_flip (totGood stats) (totBad stats) s
    rw [hw]
    ring
  rw [hfun]

/-! ### Binarizer lemmas -/

theorem seriesGe_get (s : List (Option ℚ)) (thr : Option ℚ) (i : ℕ) :
    (seriesGe s thr).get? i = (s.get? i).map (fun o => if geThr thr o then (1 : ℚ) else 0) := by
  unfold seriesGe
  rw [List.get?_map]

theorem seriesGe_count (s : List (Option ℚ)) (thr : Option ℚ) :
    (seriesGe s thr).countP (fun x => decide (x = 1)) = s.countP (geThr thr) := by
  unfold seriesGe
  rw [List.countP_map]
  have hfun : ((fun x : ℚ => decide (x = 1)) ∘ (fun o => if geThr thr o then (1 : ℚ) else 0))
      = geThr thr := by
    funext o
    by_cases h : geThr thr o <;> simp [h]
  rw [hfun]

theorem seriesGe_none (s : List (Option ℚ)) (thr : Option ℚ) (i : ℕ)
    (hi : s.get? i = some none) : (seriesGe s thr).get? i = some 0 := by
  rw [seriesGe_get, hi]
  cases thr <;> simp [geThr]

/-! ### Claim theorems -/

/-- C3: `compute_iv` returns the failure value `(None, None)` — modelled
as `none` — rather than raising, exactly when, after joining the feature
and label columns and dropping rows missing either, no rows remain, or
the label values are not a subset of {0, 1}, or quantile binning realizes
fewer than 2 bins (including the case where `pd.cut` raises, which the
catch-all `except` converts into the failure value), or one of the two
classes is entirely absent (`total_good = 0` or `total_bad = 0`);
otherwise it returns a bin report and a scalar IV. -/
theorem c3_compute_iv_failure_iff (rows : List (Option ℚ × Option ℚ)) (bins : ℕ) :
    compute_iv rows bins = none ↔
      ((joinDropna rows).isEmpty = true ∨ ivLabelsOk rows = false
        ∨ ivObserved rows bins < 2
        ∨ ivTotalGood rows bins = 0 ∨ ivTotalBad rows bins = 0) := by
  unfold compute_iv ivObserved ivTotalGood ivTotalBad
  cases he : (joinDropna rows).isEmpty with
  | true => simp [he]
  | false =>
      cases hl : ivLabelsOk rows with
      | false => simp [hl]
      | true =>
          cases hst : ivStats rows bins with
          | none => simp
          | some stats2 =>
              dsimp only [Option.getD_some]
              by_cases hc : stats2.countP (fun s => decide (0 < s.1)) < 2
              · simp [hc]
              · by_cases ht : totGood stats2 = 0 ∨ totBad stats2 = 0
                · rcases ht with ht1 | ht1 <;> simp [hc, ht1]
                · push_neg at ht
                  simp [hc, ht.1, ht.2]

/-- C9 (counterexample): the feature [1,1,2,2,3,3,1,2,3,1] has exactly 3
distinct non-missing values, yet requesting 5 bins realizes 5 bins, not
at most 3: `pd.qcut` is applied to `rank(method="first")`, whose ranks
are all distinct, so heavy duplication in the raw values does not merge
any bins. -/
theorem c9_counterexample :
    realizedBinCount [1, 1, 2, 2, 3, 3, 1, 2, 3, 1] 5 = 5 ∧
    ¬ realizedBinCount [1, 1, 2, 2, 3, 3, 1, 2, 3, 1] 5 ≤ 3 := by
  decide

/-- C9 (amended): for any feature values and any requested bin count `k`,
the rank-based quantile binning used by both report builders realizes at
most `k` bins and raises no exception that reaches the caller (binning
failures are the `none` branch, counted as 0 realized bins); the realized
count is not bounded by the number of distinct feature values. -/
theorem c9_realized_le_requested (xs : List ℚ) (k : ℕ) : realizedBinCount xs k ≤ k := by
  unfold realizedBinCount
  cases hq : qcutRank xs k with
  | none => exact Nat.zero_le k
  | some pr =>
      obtain ⟨idxs, m⟩ := pr
      have h1 : (List.range m).countP (fun j => idxs.any (fun o => o == some (j + 1))) ≤ m := by
        have := countP_le_lengthQ (List.range m) (fun j => idxs.any (fun o => o == some (j + 1)))
        simpa using this
      have h3 : (if (qcutEdges (rankFirst xs) k).length < 2 then none
          else some ((rankFirst xs).map (binIdxOpt (qcutEdges (rankFirst xs) k)),
            (qcutEdges (rankFirst xs) k).length - 1)) = some (idxs, m) := hq
      have h2 : m ≤ k := by
        by_cases hlen : (qcutEdges (rankFirst xs) k).length < 2
        · rw [if_pos hlen] at h3
          cases h3
        · rw [if_neg hlen] at h3
          have hm : m = (qcutEdges (rankFirst xs) k).length - 1 :=
            (congrArg Prod.snd (Option.some.inj h3)).symm
          have hlen2 : (qcutEdges (rankFirst xs) k).length ≤ k + 1 := by
            unfold qcutEdges
            calc (dedupC ((List.range (k + 1)).map
                  (fun (i : ℕ) => quantileQ (rankFirst xs) ((i : ℚ) / (k : ℚ))))).length
                ≤ ((List.range (k + 1)).map
                  (fun (i : ℕ) => quantileQ (rankFirst xs) ((i : ℚ) / (k : ℚ)))).length :=
                  dedupC_length_le _
              _ = k + 1 := by rw [List.length_map, List.length_range]
          omega
      dsimp only
      omega

/-- C2: whenever `compute_iv` returns a valid (non-`None`) report, the
scalar IV is non-negative, because every per-bin term
`(dist_good - dist_bad) * woe` is a product of two factors of the same
sign (each term is itself non-negative). -/
theorem c2_iv_nonneg (rows : List (Option ℚ × Option ℚ)) (bins : ℕ) (stats : List (ℕ × ℚ))
    (h : compute_iv rows bins = some stats) :
    0 ≤ ivValue stats ∧ ∀ s ∈ stats, 0 ≤ ivBinTerm (totGood stats) (totBad stats) s := by
  have hb := compute_iv_stats_bounds rows bins stats h
  refine ⟨ivValue_nonneg stats hb, fun s hs => ?_⟩
  exact ivBinTerm_nonneg _ _ s (totGood_nonneg stats hb) (totBad_nonneg stats hb)
    (hb s hs).1 (by linarith [(hb s hs).2])

/-- C2 (witness): a concrete feature/label input on which `compute_iv`
returns a valid report, and its IV is non-negative. -/
theorem c2_iv_nonneg_witness :
    0 ≤ ivValue [(2, 1), (2, 1)] ∧
      ∀ s ∈ [((2 : ℕ), (1 : ℚ)), (2, 1)],
        0 ≤ ivBinTerm (totGood [(2, 1), (2, 1)]) (totBad [(2, 1), (2, 1)]) s :=
  c2_iv_nonneg rowsW2 2 [(2, 1), (2, 1)] (by decide)

/-- C10: whenever `compute_iv` returns a non-`None` report, the report is
internally consistent: every bin's good count lies between 0 and its row
count (so `bad = count - good` is a value between 0 and count), the bin
counts sum to the number of rows remaining after the join-and-drop step,
and the returned scalar IV is the sum of the report's `iv_bin` column. -/
theorem c10_report_consistent (rows : List (Option ℚ × Option ℚ)) (bins : ℕ)
    (stats : List (ℕ × ℚ)) (h : compute_iv rows bins = some stats) :
    (∀ s ∈ stats, 0 ≤ s.2 ∧ s.2 ≤ (s.1 : ℚ)) ∧
    (stats.map (fun s => ((s.1 : ℕ) : ℚ))).sum = ((joinDropna rows).length : ℚ) ∧
    ivValue stats = (stats.map (ivBinTerm (totGood stats) (totBad stats))).sum :=
  ⟨compute_iv_stats_bounds rows bins stats h, compute_iv_count_sum rows bins stats h, rfl⟩

/-- C10 (witness): the consistency facts at a concrete input with six
joined rows and three bins. -/
theorem c10_report_consistent_witness :
    (∀ s ∈ [((2 : ℕ), (1 : ℚ)), (2, 1), (2, 1)], 0 ≤ s.2 ∧ s.2 ≤ (s.1 : ℚ)) ∧
    (([((2 : ℕ), (1 : ℚ)), (2, 1), (2, 1)]).map (fun s => ((s.1 : ℕ) : ℚ))).sum
      = ((joinDropna rowsW10).length : ℚ) ∧
    ivValue [(2, 1), (2, 1), (2, 1)]
      = (([((2 : ℕ), (1 : ℚ)), (2, 1), (2, 1)]).map
          (ivBinTerm (totGood [(2, 1), (2, 1), (2, 1)]) (totBad [(2, 1), (2, 1), (2, 1)]))).sum :=
  c10_report_consistent rowsW10 3 [(2, 1), (2, 1), (2, 1)] (by decide)

/-- C4: flipping which class is "good" (relabelling 0 and 1 at the data
level) keeps `compute_iv` valid with good and bad exchanged in every bin,
negates the `woe` value of every bin, and leaves the scalar IV — in
particular its magnitude — unchanged. -/
theorem c4_label_flip (rows : List (Option ℚ × Option ℚ)) (bins : ℕ)
    (stats : List (ℕ × ℚ)) (h : compute_iv rows bins = some stats) :
    compute_iv (flipRows rows) bins = some (flipStats stats) ∧
    woeList (flipStats stats) = (woeList stats).map Neg.neg ∧
    ivValue (flipStats stats) = ivValue stats ∧
    |ivValue (flipStats stats)| = |ivValue stats| := by
  refine ⟨compute_iv_flip rows bins stats h, woeList_flip stats, ivValue_flip stats, ?_⟩
  rw [ivValue_flip]

/-- C4 (witness): the flip facts at a concrete input whose report is
asymmetric between the two classes. -/
theorem c4_label_flip_witness :
    compute_iv (flipRows rowsW4) 2 = some (flipStats [(2, 0), (2, 2)]) ∧
    woeList (flipStats [(2, 0), (2, 2)]) = (woeList [(2, 0), (2, 2)]).map Neg.neg ∧
    ivValue (flipStats [(2, 0), (2, 2)]) = ivValue [(2, 0), (2, 2)] ∧
    |ivValue (flipStats [(2, 0), (2, 2)])| = |ivValue [(2, 0), (2, 2)]| :=
  c4_label_flip rowsW4 2 [(2, 0), (2, 2)] (by decide)

/-- C1 (counterexample): on the target [1, 2, 3] the Lift builder's
median split (`pd.cut(target, [-inf, med, inf])`, right-closed) labels
only the value 3 "good", while the number of values ≥ the median 2 is 2:
inside the Lift builder label 1 is NOT assigned at values equal to the
median, contradicting the claim for that component. -/
theorem c1_counterexample :
    (liftTargetBin [1, 2, 3]).countP id = 1 ∧
    ([1, 2, 3] : List ℚ).countP (fun v => decide (quantileQ [1, 2, 3] (1 / 2) ≤ v)) = 2 ∧
    ¬ ((liftTargetBin [1, 2, 3]).countP id
        = ([1, 2, 3] : List ℚ).countP (fun v => decide (quantileQ [1, 2, 3] (1 / 2) ≤ v))) := by
  decide

/-- C1 (amended): for the standalone binarizer with the median policy the
claim holds: the label is 1 exactly at the non-missing positions whose
value is ≥ the median of the non-missing values, 0 at the other
non-missing positions, and the count of label 1 equals the count of
values ≥ the median.  The Lift report builder instead labels "good"
exactly the values strictly greater than the median (values equal to the
median fall in the right-closed "bad" interval). -/
theorem c1_median_split (s : List (Option ℚ)) (cutoff : Option ℚ) (q m : ℚ)
    (hm : medianOpt s = some m) :
    bin_target_for_iv s "median" cutoff q = .ok (seriesGe s (medianOpt s)) ∧
    (seriesGe s (medianOpt s)).countP (fun x => decide (x = 1))
      = s.countP (fun o => o.elim false (fun v => decide (m ≤ v))) ∧
    (∀ i v, s.get? i = some (some v) →
      (seriesGe s (medianOpt s)).get? i = some (if m ≤ v then 1 else 0)) ∧
    (∀ t : List ℚ, (liftTargetBin t).countP id
      = t.countP (fun v => decide (quantileQ t (1 / 2) < v))) := by
  refine ⟨by simp [bin_target_for_iv], ?_, ?_, ?_⟩
  · rw [seriesGe_count, hm]
    apply List.countP_congr
    intro o _
    cases o <;> simp [geThr]
  · intro i v hi
    rw [seriesGe_get, hi, hm]
    by_cases h : m ≤ v <;> simp [geThr, h]
  · intro t
    unfold liftTargetBin
    rw [List.countP_map]
    rfl

/-- C1 (witness): the amended statement instantiated at the series
[1, 2, 3] with median 2. -/
theorem c1_median_split_witness :
    bin_target_for_iv [some 1, some 2, some 3] "median" none (1 / 2)
      = .ok (seriesGe [some 1, some 2, some 3] (medianOpt [some 1, some 2, some 3])) ∧
    (seriesGe [some 1, some 2, some 3] (medianOpt [some 1, some 2, some 3])).countP
        (fun x => decide (x = 1))
      = ([some 1, some 2, some 3] : List (Option ℚ)).countP
        (fun o => o.elim false (fun v => decide ((2 : ℚ) ≤ v))) ∧
    (∀ i v, ([some 1, some 2, some 3] : List (Option ℚ)).get? i = some (some v) →
      (seriesGe [some 1, some 2, some 3] (medianOpt [some 1, some 2, some 3])).get? i
        = some (if (2 : ℚ) ≤ v then 1 else 0)) ∧
    (∀ t : List ℚ, (liftTargetBin t).countP id
      = t.countP (fun v => decide (quantileQ t (1 / 2) < v))) :=
  c1_median_split [some 1, some 2, some 3] none (1 / 2) 2 (by decide)

/-- C7 (counterexample): on the input [some 1, missing] with the median
policy, the code returns the labels [1, 0]: the missing entry receives
the definite label 0 (NaN ≥ threshold evaluates to False and
`.astype(int)` makes it 0), whereas the spec-modelled binarizer keeps it
missing — missingness does not propagate to the output. -/
theorem c7_counterexample :
    bin_target_for_iv [some 1, none] "median" none (1 / 2) = .ok [1, 0] ∧
    specBinarizeMedian [some 1, none] = [some 1, none] ∧
    ¬ (([1, 0] : List ℚ).map some = specBinarizeMedian [some 1, none]) := by
  decide

/-- C7 (amended): whenever the binarizer returns a label sequence, every
missing input entry is assigned the label 0 in the output (not a missing
value): `series >= threshold` is False at NaN and `.astype(int)` turns
that into the integer 0. -/
theorem c7_missing_label_zero (s : List (Option ℚ)) (method : String) (cutoff : Option ℚ)
    (q : ℚ) (L : List ℚ) (h : bin_target_for_iv s method cutoff q = .ok L) :
    ∀ i, s.get? i = some none → L.get? i = some 0 := by
  intro i hi
  unfold bin_target_for_iv at h
  by_cases h1 : method = "median"
  · rw [if_pos h1] at h
    cases h
    exact seriesGe_none s _ i hi
  rw [if_neg h1] at h
  by_cases h2 : method = "cutoff"
  · rw [if_pos h2] at h
    cases hc : cutoff with
    | none => rw [hc] at h; cases h
    | some c =>
        rw [hc] at h
        cases h
        exact seriesGe_none s _ i hi
  rw [if_neg h2] at h
  by_cases h3 : method = "quantile"
  · rw [if_pos h3] at h
    by_cases h4 : q < 0 ∨ 1 < q
    · rw [if_pos h4] at h
      cases h
    · rw [if_neg h4] at h
      cases h
      exact seriesGe_none s _ i hi
  · rw [if_neg h3] at h
    cases h

/-- C7 (witness): the amended statement applied at the concrete input
[some 1, missing]: position 1 of the output holds the label 0. -/
theorem c7_missing_label_zero_witness : ([1, 0] : List ℚ).get? 1 = some 0 :=
  c7_missing_label_zero [some 1, none] "median" none (1 / 2) [1, 0] (by decide) 1 (by decide)

/-- C8 (counterexample): with method "quantile" and q = 0 — outside the
open interval (0, 1) — the binarizer does not raise `InvalidParameter`:
pandas accepts any q in the closed interval [0, 1], so the call returns
the labels [1, 1] (threshold = minimum). -/
theorem c8_counterexample :
    bin_target_for_iv [some 1, some 2] "quantile" none 0 = .ok [1, 1] ∧
    ¬ bin_target_for_iv [some 1, some 2] "quantile" none 0
        = Except.error BinError.invalidParameter := by
  decide

/-- C8 (amended): the binarizer raises `InvalidParameter` exactly for
method "cutoff" with the cutoff omitted or method "quantile" with q
outside the CLOSED interval [0, 1] (pandas validates q < 0 or q > 1, so
q = 0 and q = 1 are accepted); it raises `UnknownMethod` exactly for a
method other than median/cutoff/quantile; in every other case it returns
a label sequence without raising. -/
theorem c8_binarizer_errors (s : List (Option ℚ)) (method : String) (cutoff : Option ℚ)
    (q : ℚ) :
    (bin_target_for_iv s method cutoff q = .error .invalidParameter
      ↔ ((method = "cutoff" ∧ cutoff = none) ∨ (method = "quantile" ∧ (q < 0 ∨ 1 < q)))) ∧
    (bin_target_for_iv s method cutoff q = .error .unknownMethod
      ↔ (method ≠ "median" ∧ method ≠ "cutoff" ∧ method ≠ "quantile")) ∧
    ((∃ L, bin_target_for_iv s method cutoff q = .ok L)
      ↔ ¬ ((method = "cutoff" ∧ cutoff = none) ∨ (method = "quantile" ∧ (q < 0 ∨ 1 < q))
          ∨ (method ≠ "median" ∧ method ≠ "cutoff" ∧ method ≠ "quantile"))) := by
  unfold bin_target_for_iv
  by_cases h1 : method = "median"
  · subst h1
    have hd1 : ¬ ("median" : String) = "cutoff" := by decide
    have hd2 : ¬ ("median" : String) = "quantile" := by decide
    simp [hd1, hd2]
  · rw [if_neg h1]
    by_cases h2 : method = "cutoff"
    · subst h2
      have hd2 : ¬ ("cutoff" : String) = "quantile" := by decide
      rw [if_pos rfl]
      cases hc : cutoff with
      | none => simp [h1, hd2]
      | some c => simp [h1, hd2]
    · rw [if_neg h2]
      by_cases h3 : method = "quantile"
      · subst h3
        rw [if_pos rfl]
        by_cases h4 : q < 0 ∨ 1 < q
        · rw [if_pos h4]
          simp [h1, h2, h4]
        · rw [if_neg h4]
          simp [h1, h2, h4]
      · rw [if_neg h3]
        simp [h1, h2, h3]

/-! ### Lift builder lemmas -/

theorem zip_snd_sumQ {α : Type} (f : α → ℚ) :
    ∀ (idxs : List (Option ℕ)) (ls : List α), ls.length = idxs.length →
      ((idxs.zip ls).map (fun q => f q.2)).sum = (ls.map f).sum := by
  intro idxs
  induction idxs with
  | nil =>
      intro ls hl
      cases ls with
      | nil => rfl
      | cons a t => simp at hl
  | cons o t ih =>
      intro ls hl
      cases ls with
      | nil => simp at hl
      | cons a t2 =>
          simp only [List.zip_cons_cons, List.map_cons, List.sum_cons]
          rw [ih t2 (by simpa using hl)]

theorem len_mul_rateQ (g : List Bool) :
    ((g.length : ℕ) : ℚ) * (((g.countP id : ℕ) : ℚ) / ((g.length : ℕ) : ℚ))
      = ((g.countP id : ℕ) : ℚ) := by
  cases g with
  | nil => simp
  | cons b t =>
      have hne : (((b :: t).length : ℕ) : ℚ) ≠ 0 := by
        have : (0 : ℚ) < (((b :: t).length : ℕ) : ℚ) := by
          exact_mod_cast Nat.succ_pos t.length
        linarith
      rw [mul_comm, div_mul_cancel₀ _ hne]

theorem liftFeatPairs_snd_mem (col : List (Option ℚ)) (tbin : List Bool)
    (q : ℚ × Bool) (hq : q ∈ liftFeatPairs col tbin) : q.2 ∈ tbin := by
  unfold liftFeatPairs at hq
  obtain ⟨z, hz, hz2⟩ := List.mem_filterMap.1 hq
  obtain ⟨z1, z2⟩ := z
  cases z1 with
  | none => cases hz2
  | some v =>
      have : (v, z2) = q := by simpa using hz2
      subst this
      exact (List.of_mem_zip hz).2

theorem liftFeatPairs_allSome :
    ∀ (col : List (Option ℚ)) (tbin : List Bool), col.all (fun o => o.isSome) = true →
      col.length = tbin.length →
      (liftFeatPairs col tbin).map (·.2) = tbin := by
  intro col
  induction col with
  | nil =>
      intro tbin _ hl
      cases tbin with
      | nil => rfl
      | cons b t => simp at hl
  | cons o t ih =>
      intro tbin hall hl
      cases tbin with
      | nil => simp at hl
      | cons b t2 =>
          cases o with
          | none => simp [List.all_cons] at hall
          | some v =>
              have h1 := ih t2 (by simpa [List.all_cons] using hall) (by simpa using hl)
              simp only [liftFeatPairs, List.zip_cons_cons, List.filterMap_cons,
                Option.map_some'] at h1 ⊢
              simp [h1]

theorem nonMissing_replicate (n : ℕ) (c : ℚ) :
    nonMissing (List.replicate n (some c)) = List.replicate n c := by
  induction n with
  | zero => rfl
  | succ k ih =>
      simp only [List.replicate_succ, nonMissing, List.filterMap_cons] at ih ⊢
      simp [ih]

theorem liftTargetBin_const_false (n : ℕ) (c : ℚ) (hn : 0 < n) :
    ∀ b ∈ liftTargetBin (List.replicate n c), b = false := by
  intro b hb
  unfold liftTargetBin at hb
  obtain ⟨v, hv, rfl⟩ := List.mem_map.1 hb
  have hvc : v = c := List.eq_of_mem_replicate hv
  have hmed : quantileQ (List.replicate n c) (1 / 2) = c := by
    apply quantileQ_const _ _ c (by norm_num) (by norm_num)
    · intro hcon
      rw [hcon] at hv
      cases hv
    · intro x hx
      exact List.eq_of_mem_replicate hx
  rw [hmed, hvc]
  simp

theorem getCol_map_keep (df : List (String × List (Option ℚ))) (target : String)
    (F : (String × List (Option ℚ)) → (String × List (Option ℚ)))
    (hfst : ∀ c, (F c).1 = c.1) (hkeep : ∀ c, c.1 = target → F c = c) :
    getCol (df.map F) target = getCol df target := by
  induction df with
  | nil => rfl
  | cons a t ih =>
      unfold getCol at ih ⊢
      simp only [List.map_cons, List.find?_cons]
      by_cases ha : a.1 = target
      · rw [hkeep a ha]
        have : (a.1 == target) = true := by simpa using ha
        rw [this]
      · have h1 : (a.1 == target) = false := by simpa using ha
        have h2 : ((F a).1 == target) = false := by
          rw [hfst a]
          simpa using ha
        rw [h1, h2]
        exact ih

theorem map_fst_name_keep (l : List (String × List (Option ℚ)))
    (F : (String × List (Option ℚ)) → (String × List (Option ℚ)))
    (hfst : ∀ c, (F c).1 = c.1) : (l.map F).map Prod.fst = l.map Prod.fst := by
  rw [List.map_map]
  apply List.map_congr_left
  intro c _
  exact hfst c

theorem liftImputeTarget_names (df : List (String × List (Option ℚ))) (target : String)
    (it : Bool) (ts : ImputeStrategy) :
    (liftImputeTarget df target it ts).map Prod.fst = df.map Prod.fst := by
  unfold liftImputeTarget
  by_cases h : it ∧ hasMissing (getCol df target)
  · rw [if_pos h]
    apply map_fst_name_keep
    intro c
    by_cases hc : (c.1 == target) = true <;> simp [hc]
  · rw [if_neg h]

theorem liftImpute_names (df : List (String × List (Option ℚ))) (target : String)
    (it : Bool) (ts : ImputeStrategy) (impF : Bool) (fs : ImputeStrategy)
    (df2 : List (String × List (Option ℚ)))
    (h : liftImpute df target it ts impF fs = some df2) :
    df2.map Prod.fst = df.map Prod.fst := by
  unfold liftImpute at h
  by_cases h1 : it ∧ hasMissing (getCol df target) ∧ allMissing (getCol df target)
  · rw [if_pos h1] at h
    cases h
  rw [if_neg h1] at h
  by_cases h2 : impF ∧ (liftImputeTarget df target it ts).any
      (fun c => c.1 != target && hasMissing c.2 && allMissing c.2)
  · rw [if_pos h2] at h
    cases h
  rw [if_neg h2] at h
  have hdf2 := (Option.some.inj h).symm
  rw [hdf2]
  by_cases h3 : impF
  · rw [if_pos h3]
    rw [map_fst_name_keep _ _ (fun c => ?_)]
    · exact liftImputeTarget_names df target it ts
    · by_cases hc : (c.1 != target && hasMissing c.2) = true <;> simp [hc]
  · rw [if_neg h3]
    exact liftImputeTarget_names df target it ts

theorem liftImputeTarget_col_nomiss (df : List (String × List (Option ℚ))) (target : String)
    (it : Bool) (ts : ImputeStrategy) (hnm : hasMissing (getCol df target) = false) :
    liftImputeTarget df target it ts = df := by
  unfold liftImputeTarget
  rw [if_neg]
  intro hcon
  rw [hnm] at hcon
  exact Bool.false_ne_true hcon.2

theorem liftImpute_target_col (df : List (String × List (Option ℚ))) (target : String)
    (it : Bool) (ts : ImputeStrategy) (impF : Bool) (fs : ImputeStrategy)
    (df2 : List (String × List (Option ℚ)))
    (hnm : hasMissing (getCol df target) = false)
    (h : liftImpute df target it ts impF fs = some df2) :
    getCol df2 target = getCol df target := by
  unfold liftImpute at h
  rw [liftImputeTarget_col_nomiss df target it ts hnm] at h
  by_cases h1 : it ∧ hasMissing (getCol df target) ∧ allMissing (getCol df target)
  · rw [if_pos h1] at h
    cases h
  rw [if_neg h1] at h
  by_cases h2 : impF ∧ df.any (fun c => c.1 != target && hasMissing c.2 && allMissing c.2)
  · rw [if_pos h2] at h
    cases h
  rw [if_neg h2] at h
  have hdf2 := (Option.some.inj h).symm
  rw [hdf2]
  by_cases h3 : impF
  · rw [if_pos h3]
    apply getCol_map_keep
    · intro c
      by_cases hc : (c.1 != target && hasMissing c.2) = true <;> simp [hc]
    · intro c hc
      rw [if_neg]
      intro hcon
      rw [hc] at hcon
      simp at hcon
  · rw [if_neg h3]

theorem liftDrop_names (df : List (String × List (Option ℚ))) (target : String) :
    (liftDrop df target).map Prod.fst = df.map Prod.fst := by
  unfold liftDrop
  apply map_fst_name_keep
  intro c
  rfl

theorem getCol_of_mem_nodup :
    ∀ (l : List (String × List (Option ℚ))), (l.map Prod.fst).Nodup →
      ∀ c ∈ l, getCol l c.1 = c.2 := by
  intro l
  induction l with
  | nil => intro _ c hc; cases hc
  | cons a t ih =>
      intro hnd c hc
      rw [List.map_cons] at hnd
      have hnd2 := List.nodup_cons.1 hnd
      rcases List.mem_cons.1 hc with rfl | hmem
      · unfold getCol
        simp [List.find?_cons]
      · have hne : (a.1 == c.1) = false := by
          rw [beq_eq_false_iff_ne]
          intro hcon
          apply hnd2.1
          rw [hcon]
          exact List.mem_map_of_mem Prod.fst hmem
        unfold getCol
        rw [List.find?_cons, hne]
        exact ih hnd2.2 c hmem

theorem filterMap_guard_fst {β : Type} (l : List (String × List (Option ℚ)))
    (P : (String × List (Option ℚ)) → Prop) [DecidablePred P]
    (F : (String × List (Option ℚ)) → Option β) :
    (l.filterMap (fun c => if P c then none else (F c).map (fun rep => (c.1, rep)))).map
        Prod.fst
      = (l.filter (fun c => !(decide (P c)) && (F c).isSome)).map Prod.fst := by
  induction l with
  | nil => rfl
  | cons a t ih =>
      by_cases hp : P a
      · have hcond : (!(decide (P a)) && (F a).isSome) = false := by simp [hp]
        simp only [List.filterMap_cons, if_pos hp, List.filter_cons, hcond,
          Bool.false_eq_true, if_false]
        exact ih
      · cases hf : F a with
        | none =>
            have hcond : (!(decide (P a)) && (none : Option β).isSome) = false := by simp
            simp only [List.filterMap_cons, if_neg hp, hf, Option.map_none', List.filter_cons,
              hcond, Bool.false_eq_true, if_false]
            exact ih
        | some rep =>
            have hcond : (!(decide (P a)) && (some rep : Option β).isSome) = true := by
              simp [hp]
            simp only [List.filterMap_cons, if_neg hp, hf, Option.map_some', List.filter_cons,
              hcond, if_true, List.map_cons]
            rw [ih]

theorem liftReport_some (pairs : List (ℚ × Bool)) (overall : ℚ) (bs : List LiftBin)
    (h : liftReport pairs overall = some bs) :
    ∃ idxs m, qcutRank (pairs.map (·.1)) 10 = some (idxs, m) ∧
      bs = (groupLabels idxs (pairs.map (·.2)) m).map (fun g =>
        ⟨((g.countP id : ℕ) : ℚ) / ((g.length : ℕ) : ℚ),
         (((g.countP id : ℕ) : ℚ) / ((g.length : ℕ) : ℚ)) / overall, g.length⟩) := by
  unfold liftReport at h
  cases hq : qcutRank (pairs.map (·.1)) 10 with
  | none => rw [hq] at h; cases h
  | some pr =>
      rw [hq] at h
      obtain ⟨idxs, m⟩ := pr
      dsimp only at h
      exact ⟨idxs, m, rfl, (Option.some.inj h).symm⟩

theorem groupBools_good_sum (idxs : List (Option ℕ)) (ls : List Bool) (m : ℕ)
    (hrange : ∀ o ∈ idxs, ∃ j, o = some j ∧ 1 ≤ j ∧ j ≤ m)
    (hlen : ls.length = idxs.length) :
    ((groupLabels idxs ls m).map (fun g => ((g.countP id : ℕ) : ℚ))).sum
      = ((ls.countP id : ℕ) : ℚ) := by
  have hfun : (fun g : List Bool => ((g.countP id : ℕ) : ℚ))
      = fun g : List Bool => (g.map (fun b => if id b then (1 : ℚ) else 0)).sum :=
    funext (fun g => countP_castQ g id)
  rw [hfun]
  have hzip : ∀ p ∈ idxs.zip ls, ∃ j, p.1 = some j ∧ 1 ≤ j ∧ j ≤ m := by
    intro p hp
    obtain ⟨o, x⟩ := p
    exact hrange o (List.of_mem_zip hp).1
  rw [groupLabels_sumQ idxs ls m (fun b => if id b then (1 : ℚ) else 0) hzip]
  rw [zip_snd_sumQ (fun b => if id b then (1 : ℚ) else 0) idxs ls hlen]
  exact (countP_castQ ls id).symm

theorem groupBools_len_sum (idxs : List (Option ℕ)) (ls : List Bool) (m : ℕ)
    (hrange : ∀ o ∈ idxs, ∃ j, o = some j ∧ 1 ≤ j ∧ j ≤ m)
    (hlen : ls.length = idxs.length) :
    ((groupLabels idxs ls m).map (fun g => ((g.length : ℕ) : ℚ))).sum
      = (idxs.length : ℚ) := by
  have hfun : (fun g : List Bool => ((g.length : ℕ) : ℚ))
      = fun g : List Bool => (g.map (fun _ => (1 : ℚ))).sum :=
    funext (fun g => (sum_map_onesQ g).symm)
  rw [hfun]
  have hzip : ∀ p ∈ idxs.zip ls, ∃ j, p.1 = some j ∧ 1 ≤ j ∧ j ≤ m := by
    intro p hp
    obtain ⟨o, x⟩ := p
    exact hrange o (List.of_mem_zip hp).1
  rw [groupLabels_sumQ idxs ls m (fun _ => (1 : ℚ)) hzip]
  rw [zip_snd_sumQ (fun _ => (1 : ℚ)) idxs ls hlen]
  rw [sum_map_onesQ, hlen]

theorem liftReport_sums (pairs : List (ℚ × Bool)) (overall : ℚ) (bs : List LiftBin)
    (h : liftReport pairs overall = some bs) :
    (bs.map (fun b => (b.count : ℚ) * b.goodRate)).sum
      = ((pairs.countP (fun q => q.2) : ℕ) : ℚ) ∧
    (bs.map (fun b => ((b.count : ℕ) : ℚ))).sum = (pairs.length : ℚ) := by
  obtain ⟨idxs, m, hq, hbs⟩ := liftReport_some pairs overall bs h
  obtain ⟨hlen, _, hrange⟩ := qcutRank_some_spec _ _ _ _ hq
  have hlen2 : (pairs.map (·.2)).length = idxs.length := by
    rw [hlen, List.length_map, List.length_map]
  constructor
  · rw [hbs, List.map_map]
    have hfun : ((fun b : LiftBin => (b.count : ℚ) * b.goodRate) ∘ (fun g : List Bool =>
        (⟨((g.countP id : ℕ) : ℚ) / ((g.length : ℕ) : ℚ),
          (((g.countP id : ℕ) : ℚ) / ((g.length : ℕ) : ℚ)) / overall, g.length⟩ : LiftBin)))
        = fun g : List Bool => ((g.countP id : ℕ) : ℚ) :=
      funext (fun g => len_mul_rateQ g)
    rw [hfun]
    rw [groupBools_good_sum idxs (pairs.map (·.2)) m hrange hlen2]
    rw [List.countP_map]
    rfl
  · rw [hbs, List.map_map]
    have hfun : ((fun b : LiftBin => ((b.count : ℕ) : ℚ)) ∘ (fun g : List Bool =>
        (⟨((g.countP id : ℕ) : ℚ) / ((g.length : ℕ) : ℚ),
          (((g.countP id : ℕ) : ℚ) / ((g.length : ℕ) : ℚ)) / overall, g.length⟩ : LiftBin)))
        = fun g : List Bool => ((g.length : ℕ) : ℚ) := by
      funext g
      rfl
    rw [hfun]
    rw [groupBools_len_sum idxs (pairs.map (·.2)) m hrange hlen2]
    rw [hlen, List.length_map]

theorem build_lift_mem (df : List (String × List (Option ℚ))) (target : String)
    (it : Bool) (ts : ImputeStrategy) (impF : Bool) (fs : ImputeStrategy)
    (r : List (String × List LiftBin)) (feat : String) (bs : List LiftBin)
    (h : build_lift_reports df target it ts impF fs = some r)
    (hmem : (feat, bs) ∈ r) :
    ∃ df2 c, liftImpute df target it ts impF fs = some df2 ∧
      c ∈ liftDrop df2 target ∧ c.1 = feat ∧
      ¬ c.2.countP (fun o => o.isSome) < 10 ∧
      liftReport (liftFeatPairs c.2 (liftTargetBin (nonMissing (getCol df2 target))))
        (liftOverall (nonMissing (getCol df2 target))) = some bs := by
  unfold build_lift_reports at h
  cases hli : liftImpute df target it ts impF fs with
  | none => rw [hli] at h; cases h
  | some df2 =>
      rw [hli] at h
      dsimp only at h
      have hr := (Option.some.inj h).symm
      rw [hr] at hmem
      obtain ⟨c, hc, hcc⟩ := List.mem_filterMap.1 hmem
      by_cases hg : c.2.countP (fun o => o.isSome) < 10
      · rw [if_pos hg] at hcc
        cases hcc
      · rw [if_neg hg] at hcc
        cases hf : liftReport (liftFeatPairs c.2
            (liftTargetBin (nonMissing (getCol df2 target))))
            (liftOverall (nonMissing (getCol df2 target))) with
        | none => rw [hf] at hcc; cases hcc
        | some rep =>
            rw [hf] at hcc
            have hpair := Option.some.inj hcc
            have h1 : c.1 = feat := congrArg Prod.fst hpair
            have h2 : rep = bs := congrArg Prod.snd hpair
            subst h2
            exact ⟨df2, c, rfl, List.mem_of_mem_filter hc, h1, hg, hf⟩

theorem hasMissing_replicate_some (n : ℕ) (c : ℚ) :
    hasMissing (List.replicate n (some c)) = false := by
  unfold hasMissing
  induction n with
  | zero => rfl
  | succ k ih => simpa [List.replicate_succ] using ih

/-- C5 (counterexample): on a dataset whose target is the constant 7 and
whose feature "f" has ten present values, the Lift builder does NOT
return an empty result mapping: it completes and maps "f" to a
ten-bin report (with good-rate 0 everywhere and degenerate lift values,
NaN in the float source, 0 in this rational model).  The degenerate
label causes no skip. -/
theorem c5_counterexample :
    build_lift_reports dfW5 "t" false ImputeStrategy.mean false ImputeStrategy.mean
      = some [("f", List.replicate 10 ⟨0, 0, 1⟩)] ∧
    ¬ ([(("f" : String), List.replicate 10 (⟨0, 0, 1⟩ : LiftBin))]
        = ([] : List (String × List LiftBin))) := by
  decide

/-- C5 (amended): for a dataset whose target column is a single constant
(present) value, the Lift builder completes without throwing — provided
the `SimpleImputer` all-missing-column corner does not reject the input —
and, far from returning an empty mapping, its result maps every
surviving candidate feature (non-target, at least 10 present values,
binnable) to a report; all good-rates in those reports are 0, since the
right-closed median split labels every row "bad". -/
theorem c5_constant_target (df : List (String × List (Option ℚ))) (target : String)
    (it : Bool) (ts : ImputeStrategy) (impF : Bool) (fs : ImputeStrategy)
    (n : ℕ) (c : ℚ) (hn : 0 < n)
    (hcol : getCol df target = List.replicate n (some c))
    (himp : liftImpute df target it ts impF fs ≠ none) :
    (build_lift_reports df target it ts impF fs).isSome = true ∧
    ((build_lift_reports df target it ts impF fs).getD []).map Prod.fst
      = liftCandidates df target it ts impF fs ∧
    ∀ fb ∈ (build_lift_reports df target it ts impF fs).getD [],
      ∀ b ∈ fb.2, b.goodRate = 0 := by
  cases hli : liftImpute df target it ts impF fs with
  | none => cases himp hli
  | some df2 =>
      have hbuild : build_lift_reports df target it ts impF fs
          = some (((liftDrop df2 target).filter (fun c2 => c2.1 != target)).filterMap (fun c2 =>
            if c2.2.countP (fun o => o.isSome) < 10 then none
            else (liftReport (liftFeatPairs c2.2
                (liftTargetBin (nonMissing (getCol df2 target))))
              (liftOverall (nonMissing (getCol df2 target)))).map (fun rep => (c2.1, rep)))) := by
        unfold build_lift_reports
        rw [hli]
      have htcol : getCol df2 target = List.replicate n (some c) := by
        rw [liftImpute_target_col df target it ts impF fs df2
          (by rw [hcol]; exact hasMissing_replicate_some n c) hli, hcol]
      have htbin : ∀ b2 ∈ liftTargetBin (nonMissing (getCol df2 target)), b2 = false := by
        rw [htcol, nonMissing_replicate]
        exact liftTargetBin_const_false n c hn
      refine ⟨by rw [hbuild]; rfl, ?_, ?_⟩
      · rw [hbuild]
        simp only [Option.getD_some]
        unfold liftCandidates
        rw [hli]
        exact filterMap_guard_fst _ (fun c2 => c2.2.countP (fun o => o.isSome) < 10) _
      · rw [hbuild]
        simp only [Option.getD_some]
        intro fb hfb b hb
        obtain ⟨c2, _, hcc⟩ := List.mem_filterMap.1 hfb
        by_cases hg : c2.2.countP (fun o => o.isSome) < 10
        · rw [if_pos hg] at hcc
          cases hcc
        · rw [if_neg hg] at hcc
          cases hf : liftReport (liftFeatPairs c2.2
              (liftTargetBin (nonMissing (getCol df2 target))))
              (liftOverall (nonMissing (getCol df2 target))) with
          | none =>
              rw [hf] at hcc
              cases hcc
          | some rep =>
              rw [hf] at hcc
              have hpair := Option.some.inj hcc
              have h2 : rep = fb.2 := congrArg Prod.snd hpair
              rw [← h2] at hb
              obtain ⟨idxs, m, _, hrep⟩ := liftReport_some _ _ rep hf
              rw [hrep] at hb
              obtain ⟨g, hg2, rfl⟩ := List.mem_map.1 hb
              have hzero : g.countP id = 0 := by
                rw [List.countP_eq_zero]
                intro x hx
                have hxm : x ∈ (liftFeatPairs c2.2
                    (liftTargetBin (nonMissing (getCol df2 target)))).map (·.2) :=
                  groupLabels_mem idxs _ m g hg2 x hx
                obtain ⟨q, hq, rfl⟩ := List.mem_map.1 hxm
                have := htbin q.2 (liftFeatPairs_snd_mem _ _ q hq)
                simp [this]
              show ((g.countP id : ℕ) : ℚ) / ((g.length : ℕ) : ℚ) = 0
              rw [hzero]
              simp

/-- C5 (witness): the amended statement at the concrete constant-target
dataset: the call succeeds, the (non-empty) key list equals the
candidate list, and all good-rates are 0. -/
theorem c5_constant_target_witness :
    (build_lift_reports dfW5 "t" false ImputeStrategy.mean false ImputeStrategy.mean).isSome
        = true ∧
    ((build_lift_reports dfW5 "t" false ImputeStrategy.mean false
        ImputeStrategy.mean).getD []).map Prod.fst
      = liftCandidates dfW5 "t" false ImputeStrategy.mean false ImputeStrategy.mean ∧
    ∀ fb ∈ (build_lift_reports dfW5 "t" false ImputeStrategy.mean false
        ImputeStrategy.mean).getD [],
      ∀ b ∈ fb.2, b.goodRate = 0 :=
  c5_constant_target dfW5 "t" false ImputeStrategy.mean false ImputeStrategy.mean 10 7
    (by decide) (by decide) (by decide)

/-- C6 (counterexample): on a dataset whose feature "f" is missing
exactly on the two rows whose target is "good", the count-weighted
average of the per-bin good rates is 0 while the overall good-rate
baseline over all remaining rows is 1/6: the Lift bins cover only the
rows where the feature is present, so the invariant fails when the
feature has missing values. -/
theorem c6_counterexample :
    build_lift_reports dfW6 "t" false ImputeStrategy.mean false ImputeStrategy.mean
      = some [("f", List.replicate 10 ⟨0, 0, 1⟩)] ∧
    ((List.replicate 10 (⟨0, 0, 1⟩ : LiftBin)).map
        (fun b => (b.count : ℚ) * b.goodRate)).sum
      / ((List.replicate 10 (⟨0, 0, 1⟩ : LiftBin)).map (fun b => (b.count : ℚ))).sum = 0 ∧
    liftOverall (nonMissing (getCol dfW6 "t")) = 1 / 6 ∧
    (0 : ℚ) ≠ 1 / 6 := by
  decide

/-- C6 (amended): for every feature report of the Lift builder, the
count-weighted sum of the per-bin good rates equals the number of good
rows among the rows where the feature is present, and the counts sum to
the number of such rows; hence the count-weighted average of the good
rates equals the good rate among the feature-present rows.  It equals
the overall good-rate baseline when the feature column has no missing
entries among the remaining rows (in particular whenever feature
imputation is on), but not in general. -/
theorem c6_lift_baseline (df : List (String × List (Option ℚ))) (target : String)
    (it : Bool) (ts : ImputeStrategy) (impF : Bool) (fs : ImputeStrategy)
    (r : List (String × List LiftBin)) (feat : String) (bs : List LiftBin)
    (hnd : (df.map Prod.fst).Nodup)
    (h : build_lift_reports df target it ts impF fs = some r)
    (hmem : (feat, bs) ∈ r) :
    (bs.map (fun b => (b.count : ℚ) * b.goodRate)).sum
      = (((liftFeatPairs
            (getCol (liftDrop ((liftImpute df target it ts impF fs).getD []) target) feat)
            (liftTargetBin (nonMissing
              (getCol ((liftImpute df target it ts impF fs).getD []) target)))).countP
          (fun q => q.2) : ℕ) : ℚ) ∧
    (bs.map (fun b => ((b.count : ℕ) : ℚ))).sum
      = ((liftFeatPairs
            (getCol (liftDrop ((liftImpute df target it ts impF fs).getD []) target) feat)
            (liftTargetBin (nonMissing
              (getCol ((liftImpute df target it ts impF fs).getD []) target)))).length : ℚ) ∧
    ((getCol (liftDrop ((liftImpute df target it ts impF fs).getD []) target) feat).all
        (fun o => o.isSome) = true →
      (getCol (liftDrop ((liftImpute df target it ts impF fs).getD []) target) feat).length
        = (liftTargetBin (nonMissing
            (getCol ((liftImpute df target it ts impF fs).getD []) target))).length →
      (bs.map (fun b => (b.count : ℚ) * b.goodRate)).sum
          / (bs.map (fun b => ((b.count : ℕ) : ℚ))).sum
        = liftOverall (nonMissing
            (getCol ((liftImpute df target it ts impF fs).getD []) target))) := by
  obtain ⟨df2, c, hli, hcdrop, hc1, _, hf⟩ :=
    build_lift_mem df target it ts impF fs r feat bs h hmem
  have hdfp : (liftImpute df target it ts impF fs).getD [] = df2 := by
    rw [hli]
    rfl
  have hnames : ((liftDrop df2 target).map Prod.fst).Nodup := by
    rw [liftDrop_names, liftImpute_names df target it ts impF fs df2 hli]
    exact hnd
  have hcol : getCol (liftDrop df2 target) feat = c.2 := by
    rw [← hc1]
    exact getCol_of_mem_nodup (liftDrop df2 target) hnames c hcdrop
  obtain ⟨hs1, hs2⟩ := liftReport_sums _ _ bs hf
  rw [hdfp, hcol]
  refine ⟨hs1, hs2, ?_⟩
  intro hall hlen
  rw [hs1, hs2]
  have hsnd := liftFeatPairs_allSome c.2
    (liftTargetBin (nonMissing (getCol df2 target))) hall hlen
  have hcount : (liftFeatPairs c.2
      (liftTargetBin (nonMissing (getCol df2 target)))).countP (fun q => q.2)
      = (liftTargetBin (nonMissing (getCol df2 target))).countP id := by
    calc (liftFeatPairs c.2
          (liftTargetBin (nonMissing (getCol df2 target)))).countP (fun q => q.2)
        = ((liftFeatPairs c.2
            (liftTargetBin (nonMissing (getCol df2 target)))).map (·.2)).countP id := by
          rw [List.countP_map]
          rfl
      _ = (liftTargetBin (nonMissing (getCol df2 target))).countP id := by rw [hsnd]
  have hlenp : (liftFeatPairs c.2
      (liftTargetBin (nonMissing (getCol df2 target)))).length
      = (liftTargetBin (nonMissing (getCol df2 target))).length := by
    have hlm := congrArg List.length hsnd
    rw [List.length_map] at hlm
    exact hlm
  rw [hcount, hlenp]
  rfl

/-- C6 (witness): the amended statement at the concrete dataset whose
feature is missing exactly on the two good rows: the weighted sums match
the feature-present rows (good count 0, row count 10), and the guarded
baseline equation does not apply since the feature column has missing
entries. -/
theorem c6_lift_baseline_witness :
    ((List.replicate 10 (⟨0, 0, 1⟩ : LiftBin)).map
        (fun b => (b.count : ℚ) * b.goodRate)).sum
      = (((liftFeatPairs
            (getCol (liftDrop ((liftImpute dfW6 "t" false ImputeStrategy.mean false
              ImputeStrategy.mean).getD []) "t") "f")
            (liftTargetBin (nonMissing
              (getCol ((liftImpute dfW6 "t" false ImputeStrategy.mean false
                ImputeStrategy.mean).getD []) "t")))).countP
          (fun q => q.2) : ℕ) : ℚ) ∧
    ((List.replicate 10 (⟨0, 0, 1⟩ : LiftBin)).map (fun b => ((b.count : ℕ) : ℚ))).sum
      = ((liftFeatPairs
            (getCol (liftDrop ((liftImpute dfW6 "t" false ImputeStrategy.mean false
              ImputeStrategy.mean).getD []) "t") "f")
            (liftTargetBin (nonMissing
              (getCol ((liftImpute dfW6 "t" false ImputeStrategy.mean false
                ImputeStrategy.mean).getD []) "t")))).length : ℚ) ∧
    ((getCol (liftDrop ((liftImpute dfW6 "t" false ImputeStrategy.mean false
        ImputeStrategy.mean).getD []) "t") "f").all (fun o => o.isSome) = true →
      (getCol (liftDrop ((liftImpute dfW6 "t" false ImputeStrategy.mean false
        ImputeStrategy.mean).getD []) "t") "f").length
        = (liftTargetBin (nonMissing
            (getCol ((liftImpute dfW6 "t" false ImputeStrategy.mean false
              ImputeStrategy.mean).getD []) "t"))).length →
      ((List.replicate 10 (⟨0, 0, 1⟩ : LiftBin)).map
          (fun b => (b.count : ℚ) * b.goodRate)).sum
          / ((List.replicate 10 (⟨0, 0, 1⟩ : LiftBin)).map
            (fun b => ((b.count : ℕ) : ℚ))).sum
        = liftOverall (nonMissing
            (getCol ((liftImpute dfW6 "t" false ImputeStrategy.mean false
              ImputeStrategy.mean).getD []) "t"))) :=
  c6_lift_baseline dfW6 "t" false ImputeStrategy.mean false ImputeStrategy.mean
    [("f", List.replicate 10 ⟨0, 0, 1⟩)] "f" (List.replicate 10 ⟨0, 0, 1⟩)
    (by decide) (by decide) (by decide)
